import Mathlib

/-!
Shallow embedding of the document-graph expansion and callout-filter core of
the `obsidian-prompt-flow` plugin (sources: `src/pflow-Utils.ts`,
`src/pflow-Plugin.ts` / the identical `ContentGenerator` copy).

Modelling conventions:
* Text is modelled as `List Char` (`Str`); JavaScript string offsets are
  character indices (all inputs of interest are ASCII, where JS UTF-16
  offsets coincide with character counts).
* JavaScript regular expressions used by the source are translated into
  equivalent deterministic character scanners (the patterns involved are
  backtracking-free, as argued at each definition).
* The Obsidian `app` services (metadata cache, link resolution, vault reads)
  are an external interface; they are modelled as a `Vault` record of
  functions.  An asynchronous `cachedRead` that may fail is modelled as
  `Except Unit Str`.
-/

abbrev Str := List Char

/-- Whitespace test used to model both JavaScript `trimStart`/`trim` and the
regex class `\s` on the ASCII inputs considered here. -/
def isWsChar (c : Char) : Bool :=
  c = ' ' || c = '\t' || c = '\n' || c = '\r'

/-- Model of JavaScript `String.prototype.trimStart`. -/
def jsTrimStart (s : Str) : Str := s.dropWhile isWsChar

/-- Model of JavaScript `String.prototype.trim` (both ends). -/
def jsTrim (s : Str) : Str :=
  ((s.dropWhile isWsChar).reverse.dropWhile isWsChar).reverse

/-- Model of JavaScript `content.split("\n")`: splits at every newline, so the
empty string yields `[[]]` and a trailing newline yields a final empty line. -/
def splitNl : Str → List Str
  | [] => [[]]
  | c :: rest =>
    if c = '\n' then [] :: splitNl rest
    else
      match splitNl rest with
      | [] => [[c]]
      | h :: t => (c :: h) :: t

/-- Model of JavaScript `lines.join("\n")`. -/
def joinNl : List Str → Str
  | [] => []
  | [l] => l
  | l :: rest => l ++ '\n' :: joinNl rest

/-- Count of `>` characters in the leading quote-marker run of a line that has
already been `trimStart`ed, modelling
`(trimmed.match(/^(?:>\s*)*/)?.[0].match(/>/g) || []).length` from
`filterCallouts`.  After a first `>`, the greedy pattern `(?:>\s*)*` consumes
exactly the leading run of characters drawn from `>` and whitespace, so a
single scan suffices. -/
def countQuoteDepth : Str → Nat
  | [] => 0
  | c :: rest =>
    if c = '>' then 1 + countQuoteDepth rest
    else if isWsChar c then countQuoteDepth rest
    else 0

/-- Quote depth of a raw line: the source computes it on the
`trimStart`-trimmed line. -/
def lineDepth (line : Str) : Nat := countQuoteDepth (jsTrimStart line)

/-- Blank-line test from `filterCallouts`:
`depth === 0 && line.trim().length === 0`. -/
def isBlankLine (line : Str) : Bool :=
  lineDepth line = 0 && (jsTrim line).isEmpty

/-- Word characters of the regex class `[\w-]` (ASCII `\w` plus hyphen). -/
def isWordChar (c : Char) : Bool :=
  c.isAlphanum || c = '_' || c = '-'

/-- Parse `\[!([\w-]+)\]` at the head of the remainder, returning the captured
callout type. -/
def calloutTypeOf : Str → Option Str
  | '[' :: '!' :: rest =>
    let ty := rest.takeWhile isWordChar
    match rest.dropWhile isWordChar with
    | ']' :: _ => if ty.isEmpty then none else some ty
    | _ => none
  | _ => none

/-- Consume the rest of a quote run (characters from `>` and whitespace) and
then look for the `[!type]` marker. -/
def calloutAfterRun : Str → Option Str
  | [] => none
  | c :: rest =>
    if c = '>' || isWsChar c then calloutAfterRun rest
    else calloutTypeOf (c :: rest)

/-- Model of `line.match(/^((?:>\s*)+)\[!([\w-]+)\]/)` from `filterCallouts`,
returning the captured callout type when the (untrimmed) line is a callout
header.  The quote run must start at the first character of the line; after an
initial `>`, the greedy run `((?:>\s*)+)` consumes exactly the maximal run of
`>`/whitespace characters, and since `[` is neither, no backtracking can
produce a different match. -/
def calloutHeaderType (line : Str) : Option Str :=
  match line with
  | '>' :: rest => calloutAfterRun rest
  | _ => none

/-- Model of JavaScript `String.prototype.toLowerCase` on ASCII text. -/
def jsToLower (s : Str) : Str := s.map Char.toLower

/-- Model of `types.some((t) => t.toLowerCase() === calloutType)` where
`calloutType` is already lowercased by the caller. -/
def isExcludedType (types : List Str) (ty : Str) : Bool :=
  types.any fun t => jsToLower t = jsToLower ty

/-- Per-line state machine of `filterCallouts` (`src/pflow-Utils.ts`):
`skipDepth = none` models the sentinel `-1`.  Each branch mirrors the loop
body: while skipping, same-or-deeper lines are dropped, an unseparated
same-depth sibling callout header keeps the skip alive, anything else exits
the skip state and is handled normally; a callout header of an excluded type
starts a new skip region; every other line is kept verbatim. -/
def filterCalloutsGo (types : List Str) :
    List Str → Option Nat → Bool → List Str
  | [], _, _ => []
  | line :: rest, skipDepth, previousLineBlank =>
    let depth := lineDepth line
    let isBlank := isBlankLine line
    let cm := calloutHeaderType line
    match skipDepth with
    | some sd =>
      if depth > sd || (depth = sd && cm.isNone) then
        filterCalloutsGo types rest (some sd) isBlank
      else if depth = sd && cm.isSome && !previousLineBlank then
        filterCalloutsGo types rest (some sd) isBlank
      else
        match cm with
        | some ty =>
          if isExcludedType types (jsToLower ty) then
            filterCalloutsGo types rest (some depth) isBlank
          else line :: filterCalloutsGo types rest none isBlank
        | none => line :: filterCalloutsGo types rest none isBlank
    | none =>
      match cm with
      | some ty =>
        if isExcludedType types (jsToLower ty) then
          filterCalloutsGo types rest (some depth) isBlank
        else line :: filterCalloutsGo types rest none isBlank
      | none => line :: filterCalloutsGo types rest none isBlank

/-- Model of `filterCallouts(content, calloutTypes?)` from
`src/pflow-Utils.ts`: returns `content` unchanged when the type list is
missing or empty, otherwise runs the per-line state machine over the lines
and joins the kept lines with newlines. -/
def filterCallouts (content : Str) (calloutTypes : Option (List Str)) : Str :=
  match calloutTypes with
  | none => content
  | some types =>
    if types.length = 0 then content
    else joinNl (filterCalloutsGo types (splitNl content) none false)

/-! ## Data model for the document graph (Obsidian cache types) -/

/-- Resolved document handle (Obsidian `TFile`): only the `path` and
`extension` fields are consulted by the code under study. -/
structure TFile where
  path : Str
  extension : Str
deriving DecidableEq

/-- Start/end offsets of a cached structural element
(`position.start.offset` / `position.end.offset`). -/
structure CachePos where
  startOffset : Nat
  endOffset : Nat
deriving DecidableEq

/-- One entry of the metadata cache's heading list. -/
structure HeadingCache where
  heading : Str
  level : Nat
  position : CachePos
deriving DecidableEq

/-- Metadata cache of one document.  `links`/`embeds` keep only the raw
`cachedLink.link` strings, the sole field the traversal reads (the display
text is consumed only by the abstracted exclusion predicate); `blocks` is the
block-id table. -/
structure FileCache where
  links : List Str
  embeds : List Str
  headings : List HeadingCache
  blocks : List (Str × CachePos)
deriving DecidableEq

/-- External Obsidian services used by `expandLinkedFiles`:
`metadataCache.getFileCache` (keyed by the file's path),
`metadataCache.getFirstLinkpathDest (linkpath, sourcePath)`, and
`vault.cachedRead`, whose possible asynchronous failure is modelled with
`Except Unit`. -/
structure Vault where
  getFileCache : Str → Option FileCache
  getFirstLinkpathDest : Str → Str → Option TFile
  cachedRead : Str → Except Unit Str

/-- Model of `parseLinkReference` from `src/pflow-Utils.ts`: split at the
first `#`; no `#` gives a `none` subpath. -/
def parseLinkReference : Str → Str × Option Str
  | [] => ([], none)
  | c :: rest =>
    if c = '#' then ([], some rest)
    else
      match parseLinkReference rest with
      | (p, s) => (c :: p, s)

/-- Model of JavaScript `fileContent.substring(start, end)`: arguments are
swapped when out of order and clamped to the length. -/
def jsSubstring (s : Str) (a b : Nat) : Str :=
  (s.take (max a b)).drop (min a b)

/-- Lookup in the cache's block table (`cache.blocks?.[blockId]`). -/
def lookupBlock : List (Str × CachePos) → Str → Option CachePos
  | [], _ => none
  | (bid, pos) :: rest, k => if bid = k then some pos else lookupBlock rest k

/-- Model of `subpath.replace(/%20/g, " ")`. -/
def replace20 : Str → Str
  | '%' :: '2' :: '0' :: rest => ' ' :: replace20 rest
  | c :: rest => c :: replace20 rest
  | [] => []

/-- Index of the first heading whose text equals the target, rendering the
source's `cache.headings?.find((h) => h.heading === targetHeading)` followed by
`cache.headings.indexOf(heading)` (`find` stops at the first text match and
`indexOf` returns that very element's position). -/
def findHeadingIdx : List HeadingCache → Str → Option Nat
  | [], _ => none
  | h :: rest, target =>
    if h.heading = target then some 0
    else (findHeadingIdx rest target).map (· + 1)

/-- End offset of a heading section: the loop
`for h of cache.headings.slice(i+1) { if h.level <= level { end = h.position.start.offset; break } }`
with default `fileContent.length`. -/
def sectionEnd (later : List HeadingCache) (level : Nat) (dflt : Nat) : Nat :=
  match later.find? (fun h => h.level ≤ level) with
  | some h => h.position.startOffset
  | none => dflt

/-- Model of `extractSubpathContent(file, fileContent, subpath)` from
`src/pflow-Plugin.ts`: a `^block` reference returns the trimmed substring at
the block's offsets (empty on a miss); otherwise the `%20`-normalized heading
is looked up by exact text (`findHeadingIdx`), and the trimmed span from the
heading's end offset to the next same-or-shallower heading's start offset (or
end of document) is returned, empty when no heading matches. -/
def extractSubpathContent (vault : Vault) (file : TFile) (fileContent : Str)
    (subpath : Str) : Str :=
  match vault.getFileCache file.path with
  | none => []
  | some cache =>
    if subpath.head? = some '^' then
      match lookupBlock cache.blocks subpath.tail with
      | some pos => jsTrim (jsSubstring fileContent pos.startOffset pos.endOffset)
      | none => []
    else
      let targetHeading := replace20 subpath
      match findHeadingIdx cache.headings targetHeading with
      | none => []
      | some i =>
        match cache.headings[i]? with
        | none => []
        | some heading =>
          jsTrim (jsSubstring fileContent heading.position.endOffset
            (sectionEnd (cache.headings.drop (i + 1)) heading.level fileContent.length))

/-! ## The document graph walker (`expandLinkedFiles`, phase 1) -/

/-- Maximum traversal depth (`const MAX_DEPTH = 2`). -/
def MAX_DEPTH : Nat := 2

/-- Traversal entry (`type EmbeddedLink`): `subpaths` models the insertion
ordered JS `Set<string>`, `file` is `null` for unresolved links. -/
structure EmbeddedLink where
  subpaths : List Str
  hasFullReference : Bool
  file : Option TFile
  depth : Nat
deriving DecidableEq

instance : Inhabited TFile := ⟨⟨[], []⟩⟩

instance : Inhabited EmbeddedLink := ⟨⟨[], false, none, 0⟩⟩

/-- Traversal map (`type EmbeddedNotes = Map<string, EmbeddedLink>`): an
insertion-ordered association list.  The JS map holds a single mutable record
per key; mutation through a held reference is modelled by updating the entry
in place by key. -/
abbrev EmbeddedNotes := List (Str × EmbeddedLink)

/-- JS `Map.get`. -/
def lookupKey : EmbeddedNotes → Str → Option EmbeddedLink
  | [], _ => none
  | (k, v) :: rest, key => if k = key then some v else lookupKey rest key

/-- JS `Map.set`: replace in place when the key exists, else append. -/
def setKey : EmbeddedNotes → Str → EmbeddedLink → EmbeddedNotes
  | [], key, v => [(key, v)]
  | (k, w) :: rest, key, v =>
    if k = key then (k, v) :: rest else (k, w) :: setKey rest key v

/-- Update the record stored at a key in place (models field assignment on
the shared record obtained from `Map.get`). -/
def updateKey : EmbeddedNotes → Str → (EmbeddedLink → EmbeddedLink) → EmbeddedNotes
  | [], _, _ => []
  | (k, v) :: rest, key, f =>
    if k = key then (k, f v) :: rest else (k, v) :: updateKey rest key f

/-- JS `Map.delete`. -/
def eraseKey : EmbeddedNotes → Str → EmbeddedNotes
  | [], _ => []
  | (k, v) :: rest, key => if k = key then rest else (k, v) :: eraseKey rest key

/-- Keys of the traversal map, in insertion order. -/
def mapKeys (m : EmbeddedNotes) : List Str := m.map (·.1)

/-- JS `Set.add`: append when absent. -/
def addSubpath (l : List Str) (s : Str) : List Str :=
  if s ∈ l then l else l ++ [s]

/-- Record a discovered link on the entry at `key`: `!subpath` (absent or
empty) raises `hasFullReference`, otherwise the subpath joins the set. -/
def recordRef (seen : EmbeddedNotes) (key : Str) (subpath : Option Str) :
    EmbeddedNotes :=
  match subpath with
  | none => updateKey seen key fun r => { r with hasFullReference := true }
  | some sp =>
    if sp.isEmpty then updateKey seen key fun r => { r with hasFullReference := true }
    else updateKey seen key fun r => { r with subpaths := addSubpath r.subpaths sp }

/-- Inner `for (const cachedLink of allLinks)` loop of phase 1, processing the
candidate links of the document at `srcPath`, popped at depth `d`.  Returns
the updated map together with the files newly enqueued by this step (each
pushed exactly when a fresh entry is created for a resolved target).
`shouldExcludeLink` abstracts the regex test of the source's
`shouldExcludeLink` against the link's rendering. -/
def processLinks (vault : Vault) (shouldExcludeLink : Str → Bool)
    (srcPath : Str) (d : Nat) :
    List Str → EmbeddedNotes → EmbeddedNotes × List TFile
  | [], seenLinks => (seenLinks, [])
  | link :: restLinks, seenLinks =>
    if shouldExcludeLink link then
      processLinks vault shouldExcludeLink srcPath d restLinks seenLinks
    else if (lookupKey seenLinks link).isSome then
      processLinks vault shouldExcludeLink srcPath d restLinks seenLinks
    else
      match parseLinkReference link with
      | (path, subpath) =>
        match vault.getFirstLinkpathDest path srcPath with
        | none =>
          processLinks vault shouldExcludeLink srcPath d restLinks
            (setKey seenLinks link ⟨[], false, none, d + 1⟩)
        | some targetFile =>
          match lookupKey seenLinks targetFile.path with
          | none =>
            (fun r => (r.1, targetFile :: r.2))
              (processLinks vault shouldExcludeLink srcPath d restLinks
                (recordRef
                  (setKey seenLinks targetFile.path ⟨[], false, some targetFile, d + 1⟩)
                  targetFile.path subpath))
          | some _ =>
            processLinks vault shouldExcludeLink srcPath d restLinks
              (recordRef seenLinks targetFile.path subpath)

/-- Number of queue items sitting at depth `d`. -/
def qCount (d : Nat) (q : List (Option TFile × Nat)) : Nat :=
  (q.filter fun it => it.2 = d).length

theorem qCount_cons (d : Nat) (it : Option TFile × Nat)
    (q : List (Option TFile × Nat)) :
    qCount d (it :: q) = (if it.2 = d then 1 else 0) + qCount d q := by
  by_cases h : it.2 = d <;> simp [qCount, List.filter_cons, h, Nat.add_comm]

theorem qCount_append (d : Nat) (q r : List (Option TFile × Nat)) :
    qCount d (q ++ r) = qCount d q + qCount d r := by
  simp [qCount, List.filter_append]

theorem qCount_map_pushes (d dd : Nat) (P : List TFile) (hne : dd ≠ d) :
    qCount d (P.map fun tf => ((some tf : Option TFile), dd)) = 0 := by
  induction P with
  | nil => simp [qCount]
  | cons h t ih => simpa [qCount_cons, hne] using ih

/-- Phase 1 of `expandLinkedFiles`: the `while (embeddedLink)` breadth-first
queue loop.  The first result component is the final traversal map; the
second is verification instrumentation only — the paths of the files pushed
onto the queue, in push order — and does not influence the map.  Queue items
are the `(file, depth)` projections of the queued records (the only fields
phase 1 reads from a popped entry, and both are immutable after creation).
Termination: every push has depth `d + 1` for a popped depth `d < MAX_DEPTH`,
so the triple (items at depth 0, items at depth 1, queue length) decreases
lexicographically. -/
def walkLoop (vault : Vault) (excl : Str → Bool) (includeLinks : Bool) :
    List (Option TFile × Nat) → EmbeddedNotes → EmbeddedNotes × List Str
  | [], seenLinks => (seenLinks, [])
  | (none, _dd) :: fileQueue, seenLinks =>
    walkLoop vault excl includeLinks fileQueue seenLinks
  | (some f, d) :: fileQueue, seenLinks =>
    if MAX_DEPTH ≤ d then walkLoop vault excl includeLinks fileQueue seenLinks
    else
      match vault.getFileCache f.path with
      | none => walkLoop vault excl includeLinks fileQueue seenLinks
      | some fileCache =>
        (fun pr =>
          (fun r => (r.1, pr.2.map (·.path) ++ r.2))
            (walkLoop vault excl includeLinks
              (fileQueue ++ pr.2.map fun tf => (some tf, d + 1)) pr.1))
          (processLinks vault excl f.path d
            ((if includeLinks then fileCache.links else []) ++ fileCache.embeds)
            seenLinks)
termination_by q _ => (qCount 0 q, qCount 1 q, q.length)
decreasing_by
  · simp only [Prod.lex_iff, qCount_cons]
    rcases _dd with _ | _ | n <;> simp
  · simp only [Prod.lex_iff, qCount_cons]
    rcases d with _ | _ | n <;> simp
  · simp only [Prod.lex_iff, qCount_cons]
    rcases d with _ | _ | n <;> simp
  · have hlt : d < MAX_DEPTH := by omega
    simp only [Prod.lex_iff, qCount_cons, qCount_append]
    rcases d with _ | _ | n
    · simp [qCount_map_pushes]
    · simp [qCount_map_pushes]
    · exact absurd hlt (by simp [MAX_DEPTH])

/-- Fuel-indexed twin of `walkLoop`, used only to evaluate concrete runs of
the well-founded loop inside kernel reduction; `walkLoopFuel_sound` transfers
its results to `walkLoop`. -/
def walkLoopFuel (vault : Vault) (excl : Str → Bool) (includeLinks : Bool) :
    Nat → List (Option TFile × Nat) → EmbeddedNotes →
    Option (EmbeddedNotes × List Str)
  | 0, _, _ => none
  | _ + 1, [], seenLinks => some (seenLinks, [])
  | n + 1, (none, _) :: fileQueue, seenLinks =>
    walkLoopFuel vault excl includeLinks n fileQueue seenLinks
  | n + 1, (some f, d) :: fileQueue, seenLinks =>
    if MAX_DEPTH ≤ d then walkLoopFuel vault excl includeLinks n fileQueue seenLinks
    else
      match vault.getFileCache f.path with
      | none => walkLoopFuel vault excl includeLinks n fileQueue seenLinks
      | some fileCache =>
        (fun pr =>
          match
            walkLoopFuel vault excl includeLinks n
              (fileQueue ++ pr.2.map fun tf => (some tf, d + 1)) pr.1 with
          | none => none
          | some r => some (r.1, pr.2.map (·.path) ++ r.2))
          (processLinks vault excl f.path d
            ((if includeLinks then fileCache.links else []) ++ fileCache.embeds)
            seenLinks)

theorem walkLoopFuel_sound (vault : Vault) (excl : Str → Bool)
    (includeLinks : Bool) :
    ∀ (n : Nat) (q : List (Option TFile × Nat)) (seen : EmbeddedNotes) (r),
      walkLoopFuel vault excl includeLinks n q seen = some r →
      walkLoop vault excl includeLinks q seen = r := by
  intro n
  induction n with
  | zero => intro q seen r h; simp [walkLoopFuel] at h
  | succ n ih =>
    intro q seen r h
    match q with
    | [] =>
      rw [walkLoopFuel] at h
      rw [walkLoop]
      exact (Option.some.injEq _ _).mp h
    | (none, dd) :: rest =>
      rw [walkLoopFuel] at h
      rw [walkLoop]
      exact ih _ _ _ h
    | (some f, d) :: rest =>
      by_cases hd : MAX_DEPTH ≤ d
      · rw [walkLoopFuel, if_pos hd] at h
        rw [walkLoop, if_pos hd]
        exact ih _ _ _ h
      · rw [walkLoopFuel, if_neg hd] at h
        rw [walkLoop, if_neg hd]
        revert h
        match hc : vault.getFileCache f.path with
        | none => intro h; exact ih _ _ _ h
        | some fileCache =>
          intro h
          revert h
          simp only []
          match hr :
            walkLoopFuel vault excl includeLinks n
              (rest ++
                (processLinks vault excl f.path d
                  ((if includeLinks then fileCache.links else []) ++ fileCache.embeds)
                  seen).2.map fun tf => (some tf, d + 1))
              (processLinks vault excl f.path d
                ((if includeLinks then fileCache.links else []) ++ fileCache.embeds)
                seen).1 with
          | none => intro h; cases h
          | some r' =>
            intro h
            rw [ih _ _ _ hr]
            simpa using h

/-! ## Phase 2: content collection and assembly -/

/-- Sentinel opening a content block (`===== BEGIN ENTRY: path =====`; a
subpath block passes `path#subpath` as the name). -/
def entryBegin (p : Str) : Str :=
  "===== BEGIN ENTRY: ".data ++ p ++ " =====".data

/-- Sentinel closing a content block. -/
def entryEnd : Str := "===== END ENTRY =====\n".data

/-- Phase 2 of `expandLinkedFiles`: the `for (const link of seenLinks.values())`
loop.  Non-markdown and unresolved entries are skipped; each remaining entry's
content is read (`await cachedRead`, with no surrounding try/catch, so a
failing read aborts the loop and propagates, modelled by the `Except`).  A
full reference emits the whole file once; otherwise one block per recorded
subpath is emitted.  The second component is verification instrumentation
only — the paths read, in order, up to and including a failing one. -/
def collectContent (vault : Vault) :
    EmbeddedNotes → Except Unit (List Str) × List Str
  | [] => (Except.ok [], [])
  | (_, link) :: rest =>
    match link.file with
    | none => collectContent vault rest
    | some f =>
      if f.extension = "md".data then
        match vault.cachedRead f.path with
        | Except.error e => (Except.error e, [f.path])
        | Except.ok fileContent =>
          ((collectContent vault rest).1.map (fun tail =>
            (if link.hasFullReference then
              [entryBegin f.path, fileContent, entryEnd]
            else
              link.subpaths.flatMap fun subpath =>
                [entryBegin (f.path ++ '#' :: subpath),
                 extractSubpathContent vault f fileContent subpath,
                 entryEnd]) ++ tail),
           f.path :: (collectContent vault rest).2)
      else collectContent vault rest

/-- Tail of `expandLinkedFiles` after phase 1: remove the origin entry,
collect content, and append the joined blocks (if any) under the separating
header. -/
def assembleFrom (vault : Vault) (sourceFile : TFile) (content : Str)
    (seenLinks : EmbeddedNotes) : Except Unit Str :=
  match (collectContent vault (eraseKey seenLinks sourceFile.path)).1 with
  | Except.error e => Except.error e
  | Except.ok expandedContent =>
    if expandedContent.length = 0 then Except.ok content
    else
      Except.ok (content ++ "\n----- EMBEDDED/LINKED CONTENT -----\n".data
        ++ joinNl expandedContent)

/-- Origin entry seeded into the map and queue
(`{hasFullReference: true, subpaths: {}, file: sourceFile, depth: 0}`). -/
def originEntry (sourceFile : TFile) : EmbeddedLink :=
  ⟨[], true, some sourceFile, 0⟩

/-- Phase 1 of `expandLinkedFiles` as a function of the source file: final
traversal map and (instrumentation) the pushed paths. -/
def walkRun (vault : Vault) (excl : Str → Bool) (includeLinks : Bool)
    (sourceFile : TFile) : EmbeddedNotes × List Str :=
  walkLoop vault excl includeLinks [(some sourceFile, 0)]
    [(sourceFile.path, originEntry sourceFile)]

/-- Final traversal map produced by phase 1. -/
def walkFrom (vault : Vault) (excl : Str → Bool) (includeLinks : Bool)
    (sourceFile : TFile) : EmbeddedNotes :=
  (walkRun vault excl includeLinks sourceFile).1

/-- Model of `expandLinkedFiles(sourceFile, content, excludePatterns,
includeLinks)` from `src/pflow-Plugin.ts`: no metadata cache for the source
returns the content unchanged; otherwise phase 1 walks the graph and phase 2
assembles the expanded text. -/
def expandLinkedFiles (vault : Vault) (sourceFile : TFile) (content : Str)
    (excl : Str → Bool) (includeLinks : Bool) : Except Unit Str :=
  match vault.getFileCache sourceFile.path with
  | none => Except.ok content
  | some _ =>
    assembleFrom vault sourceFile content
      (walkFrom vault excl includeLinks sourceFile)

theorem walkFrom_eval (vault : Vault) (excl : Str → Bool)
    (includeLinks : Bool) (sourceFile : TFile) (n : Nat) (r) :
    walkLoopFuel vault excl includeLinks n [(some sourceFile, 0)]
      [(sourceFile.path, originEntry sourceFile)] = some r →
    walkFrom vault excl includeLinks sourceFile = r.1 := by
  intro h
  have := walkLoopFuel_sound vault excl includeLinks n _ _ _ h
  simp [walkFrom, walkRun, this]

theorem walkRun_eval (vault : Vault) (excl : Str → Bool)
    (includeLinks : Bool) (sourceFile : TFile) (n : Nat) (r) :
    walkLoopFuel vault excl includeLinks n [(some sourceFile, 0)]
      [(sourceFile.path, originEntry sourceFile)] = some r →
    walkRun vault excl includeLinks sourceFile = r := by
  intro h
  exact walkLoopFuel_sound vault excl includeLinks n _ _ _ h

/-! ## Concrete vaults used by the claim instances -/

/-- No link-exclusion patterns. -/
def noExcl : Str → Bool := fun _ => false

/-- Chain vault: A, B, C, D, each embedding the next. -/
def fileA : TFile := ⟨"A".data, "md".data⟩
def fileB : TFile := ⟨"B".data, "md".data⟩
def fileC : TFile := ⟨"C".data, "md".data⟩
def fileD : TFile := ⟨"D".data, "md".data⟩

def chainCache (embeds : List Str) : FileCache := ⟨[], embeds, [], []⟩

def chainVault : Vault where
  getFileCache p :=
    if p = "A".data then some (chainCache ["B".data])
    else if p = "B".data then some (chainCache ["C".data])
    else if p = "C".data then some (chainCache ["D".data])
    else if p = "D".data then some (chainCache [])
    else none
  getFirstLinkpathDest p _ :=
    if p = "A".data then some fileA
    else if p = "B".data then some fileB
    else if p = "C".data then some fileC
    else if p = "D".data then some fileD
    else none
  cachedRead p := Except.ok (p ++ " body".data)

/-- Collision vault for the full-reference-precedence analysis: source `S`
embeds `X#H` first and then a bare `X`, where the bare link's raw text `X`
coincides with the resolved path of `X`'s file. -/
def fileS : TFile := ⟨"S".data, "md".data⟩
def fileX : TFile := ⟨"X".data, "md".data⟩

def collisionVault : Vault where
  getFileCache p :=
    if p = "S".data then some ⟨[], ["X#H".data, "X".data], [], []⟩
    else if p = "X".data then
      some ⟨[], [], [⟨"H".data, 1, ⟨0, 4⟩⟩], []⟩
    else none
  getFirstLinkpathDest p _ := if p = "X".data then some fileX else none
  cachedRead p :=
    if p = "X".data then Except.ok "HEAD\nBODY".data else Except.ok []

/-- Failing-read vault: source `S` embeds `E` (whose read fails) and `G`
(whose read succeeds). -/
def fileE : TFile := ⟨"E".data, "md".data⟩
def fileG : TFile := ⟨"G".data, "md".data⟩

def failVault : Vault where
  getFileCache p :=
    if p = "S".data then some ⟨[], ["E".data, "G".data], [], []⟩
    else if p = "E".data then some ⟨[], [], [], []⟩
    else if p = "G".data then some ⟨[], [], [], []⟩
    else none
  getFirstLinkpathDest p _ :=
    if p = "E".data then some fileE
    else if p = "G".data then some fileG
    else none
  cachedRead p :=
    if p = "E".data then Except.error () else Except.ok (p ++ " body".data)

/-! ## Claim C4: depth bound -/

/-- C4: with `MAX_DEPTH = 2`, expanding the chain A→B→C→D from A records B at
depth 1 and C at depth 2 (each with a full reference), never discovers D, and
in general a popped queue entry whose depth has reached `MAX_DEPTH` is skipped
without scanning its outbound links (it stays in the traversal map but the
loop continues with the remaining queue unchanged otherwise). -/
theorem claimC4_depth_bound :
    lookupKey (walkFrom chainVault noExcl false fileA) "B".data
        = some ⟨[], true, some fileB, 1⟩
    ∧ lookupKey (walkFrom chainVault noExcl false fileA) "C".data
        = some ⟨[], true, some fileC, 2⟩
    ∧ lookupKey (walkFrom chainVault noExcl false fileA) "D".data = none
    ∧ (∀ (vault : Vault) (excl : Str → Bool) (incl : Bool) (f : TFile)
         (d : Nat) (q : List (Option TFile × Nat)) (s : EmbeddedNotes),
         MAX_DEPTH ≤ d →
         walkLoop vault excl incl ((some f, d) :: q) s
           = walkLoop vault excl incl q s) := by
  have hw : walkFrom chainVault noExcl false fileA =
      [(fileA.path, originEntry fileA),
       ("B".data, ⟨[], true, some fileB, 1⟩),
       ("C".data, ⟨[], true, some fileC, 2⟩)] :=
    walkFrom_eval chainVault noExcl false fileA 10
      ([(fileA.path, originEntry fileA),
        ("B".data, ⟨[], true, some fileB, 1⟩),
        ("C".data, ⟨[], true, some fileC, 2⟩)],
       ["B".data, "C".data]) (by decide)
  refine ⟨?_, ?_, ?_, ?_⟩
  · rw [hw]; decide
  · rw [hw]; decide
  · rw [hw]; decide
  · intro vault excl incl f d q s h
    conv_lhs => rw [walkLoop]
    rw [if_pos h]

theorem claimC4_depth_bound_witness :
    MAX_DEPTH ≤ 2
    ∧ walkLoop chainVault noExcl false [(some fileD, 2)] []
        = walkLoop chainVault noExcl false [] [] :=
  ⟨by decide,
   claimC4_depth_bound.2.2.2 chainVault noExcl false fileD 2 [] [] (by decide)⟩

/-! ## Claim C6: nested excluded callout example -/

/-- C6: on the four-line input with an excluded depth-2 callout nested inside
a kept depth-1 callout, `filterCallouts` drops exactly the excluded header and
its same-or-deeper continuation lines and resumes at the first shallower
line. -/
theorem claimC6_nested_example :
    filterCallouts
        "> [!note] Keep\n>> [!exclude] Drop\n>> Drop this\n> Keep".data
        (some ["exclude".data])
      = "> [!note] Keep\n> Keep".data := by decide

/-! ## Claim C8: identity cases -/

/-- C8: `filterCallouts` is the identity when the excluded-type list is
missing or empty, and maps the empty text to the empty text for every type
list. -/
theorem claimC8_identity (text : Str) (types : List Str) :
    filterCallouts text none = text
    ∧ filterCallouts text (some []) = text
    ∧ filterCallouts [] (some types) = [] := by
  refine ⟨rfl, rfl, ?_⟩
  cases types with
  | nil => rfl
  | cons t ts => rfl

/-! ## Claim C9: the filter only drops whole lines -/

theorem filterCalloutsGo_sublist (types : List Str) :
    ∀ (lines : List Str) (sd : Option Nat) (pb : Bool),
      List.Sublist (filterCalloutsGo types lines sd pb) lines := by
  intro lines
  induction lines with
  | nil => intro sd pb; simp [filterCalloutsGo]
  | cons line rest ih =>
    intro sd pb
    rw [filterCalloutsGo.eq_def]
    cases sd with
    | some k =>
      dsimp only
      split
      · exact List.Sublist.cons _ (ih _ _)
      · split
        · exact List.Sublist.cons _ (ih _ _)
        · split
          · split
            · exact List.Sublist.cons _ (ih _ _)
            · exact List.Sublist.cons₂ _ (ih _ _)
          · exact List.Sublist.cons₂ _ (ih _ _)
    | none =>
      dsimp only
      split
      · split
        · exact List.Sublist.cons _ (ih _ _)
        · exact List.Sublist.cons₂ _ (ih _ _)
      · exact List.Sublist.cons₂ _ (ih _ _)

/-- C9: for every text and non-empty excluded-type list, the output of
`filterCallouts` is the newline-join of a subsequence of the input's lines:
lines are kept verbatim, in order, each at most once — never rewritten,
truncated, duplicated or reordered. -/
theorem claimC9_sublist (text : Str) (types : List Str) (hne : types ≠ []) :
    ∃ sub : List Str, List.Sublist sub (splitNl text)
      ∧ filterCallouts text (some types) = joinNl sub := by
  refine ⟨filterCalloutsGo types (splitNl text) none false,
    filterCalloutsGo_sublist types (splitNl text) none false, ?_⟩
  have hlen : ¬types.length = 0 := by
    cases types with
    | nil => exact absurd rfl hne
    | cons t ts => simp
  rw [filterCallouts]
  rw [if_neg hlen]

theorem claimC9_sublist_witness :
    (["exclude".data] ≠ ([] : List Str))
    ∧ ∃ sub : List Str,
        List.Sublist sub (splitNl "> [!exclude] Drop\nKeep".data)
        ∧ filterCallouts "> [!exclude] Drop\nKeep".data
            (some ["exclude".data]) = joinNl sub :=
  ⟨by decide,
   claimC9_sublist "> [!exclude] Drop\nKeep".data ["exclude".data] (by decide)⟩

/-! ## Claim C10: indented quote markers -/

theorem dropWhile_ws_append (ws rest : Str) (h : ∀ c ∈ ws, isWsChar c = true) :
    (ws ++ rest).dropWhile isWsChar = rest.dropWhile isWsChar := by
  induction ws with
  | nil => rfl
  | cons c cs ih =>
    have hc : isWsChar c = true := h c (by simp)
    simpa [List.dropWhile_cons, hc] using ih fun x hx => h x (by simp [hx])

/-- C10: a line whose leading `>` markers are preceded by whitespace gets a
nonzero quote depth (depth is counted on the trimmed line) yet is never
detected as a callout header (detection is anchored at the raw line start);
hence outside a skip region it is kept and starts no exclusion — whatever the
excluded types — and inside a skip region of depth at most its own it is
dropped as nested content. -/
theorem claimC10_indented_quotes (ws rest : Str) (tail : List Str)
    (types : List Str) (sd : Nat) (pb : Bool)
    (hne : ws ≠ []) (hws : ∀ c ∈ ws, isWsChar c = true)
    (hgt : rest.head? = some '>') :
    lineDepth (ws ++ rest) ≠ 0
    ∧ calloutHeaderType (ws ++ rest) = none
    ∧ filterCalloutsGo types ((ws ++ rest) :: tail) none pb
        = (ws ++ rest) :: filterCalloutsGo types tail none false
    ∧ (sd ≤ lineDepth (ws ++ rest) →
       filterCalloutsGo types ((ws ++ rest) :: tail) (some sd) pb
         = filterCalloutsGo types tail (some sd) false) := by
  obtain ⟨rest₀, rfl⟩ : ∃ r, rest = '>' :: r := by
    cases rest with
    | nil => cases hgt
    | cons c r =>
      refine ⟨r, ?_⟩
      have : c = '>' := by simpa using hgt
      rw [this]
  have hdepth : lineDepth (ws ++ '>' :: rest₀) = 1 + countQuoteDepth rest₀ := by
    rw [lineDepth, jsTrimStart, dropWhile_ws_append ws _ hws]
    rw [List.dropWhile_cons]
    norm_num [isWsChar, countQuoteDepth]
  have hd0 : lineDepth (ws ++ '>' :: rest₀) ≠ 0 := by omega
  have hcm : calloutHeaderType (ws ++ '>' :: rest₀) = none := by
    cases ws with
    | nil => exact absurd rfl hne
    | cons w ws' =>
      have hw : isWsChar w = true := hws w (by simp)
      rw [List.cons_append, calloutHeaderType.eq_def]
      split
      · next heq =>
        exfalso
        have : w = '>' := by injection heq
        rw [this] at hw
        exact absurd hw (by decide)
      · rfl
  have hblank : isBlankLine (ws ++ '>' :: rest₀) = false := by
    rw [isBlankLine]
    simp [hd0]
  refine ⟨hd0, hcm, ?_, ?_⟩
  · rw [filterCalloutsGo.eq_def]
    dsimp only
    rw [hcm, hblank]
  · intro hsd
    rw [filterCalloutsGo.eq_def]
    dsimp only
    rw [hcm, hblank]
    have hcond : (decide (lineDepth (ws ++ '>' :: rest₀) > sd)
        || (decide (lineDepth (ws ++ '>' :: rest₀) = sd)
            && (Option.isNone (none : Option Str)))) = true := by
      rcases Nat.lt_or_ge sd (lineDepth (ws ++ '>' :: rest₀)) with h | h
      · simp [h]
      · have : lineDepth (ws ++ '>' :: rest₀) = sd := by omega
        simp [this]
    rw [if_pos hcond]

theorem claimC10_indented_quotes_witness :
    ("  ".data ≠ ([] : Str)
      ∧ (∀ c ∈ "  ".data, isWsChar c = true)
      ∧ ("> [!excluded] hi".data : Str).head? = some '>')
    ∧ (lineDepth ("  ".data ++ "> [!excluded] hi".data) ≠ 0
      ∧ calloutHeaderType ("  ".data ++ "> [!excluded] hi".data) = none
      ∧ filterCalloutsGo ["excluded".data]
          (("  ".data ++ "> [!excluded] hi".data) :: []) none false
          = ("  ".data ++ "> [!excluded] hi".data)
              :: filterCalloutsGo ["excluded".data] [] none false
      ∧ (1 ≤ lineDepth ("  ".data ++ "> [!excluded] hi".data) →
         filterCalloutsGo ["excluded".data]
             (("  ".data ++ "> [!excluded] hi".data) :: []) (some 1) false
           = filterCalloutsGo ["excluded".data] [] (some 1) false)) :=
  ⟨⟨by decide, by decide, by decide⟩,
   claimC10_indented_quotes "  ".data "> [!excluded] hi".data []
     ["excluded".data] 1 false (by decide) (by decide) (by decide)⟩

/-! ## Claim C7: sibling callouts with and without a separating blank line -/

theorem splitNl_ne_nil : ∀ s : Str, splitNl s ≠ [] := by
  intro s
  induction s with
  | nil => simp [splitNl]
  | cons c rest ih =>
    rw [splitNl]
    split
    · simp
    · match h : splitNl rest with
      | [] => exact absurd h ih
      | x :: xs => simp [h]

theorem splitNl_no_nl (l : Str) (h : ('\n' : Char) ∉ l) : splitNl l = [l] := by
  induction l with
  | nil => rfl
  | cons c rest ih =>
    have hc : ¬c = '\n' := fun hc => h (by simp [hc])
    rw [splitNl, if_neg hc, ih fun hm => h (by simp [hm])]

theorem splitNl_append_nl (l r : Str) (h : ('\n' : Char) ∉ l) :
    splitNl (l ++ '\n' :: r) = l :: splitNl r := by
  induction l with
  | nil => simp [splitNl]
  | cons c rest ih =>
    have hc : ¬c = '\n' := fun hc => h (by simp [hc])
    rw [List.cons_append, splitNl, if_neg hc,
      ih fun hm => h (by simp [hm])]

theorem splitNl_joinNl : ∀ ls : List Str, ls ≠ [] →
    (∀ l ∈ ls, ('\n' : Char) ∉ l) → splitNl (joinNl ls) = ls := by
  intro ls
  induction ls with
  | nil => intro h; exact absurd rfl h
  | cons l rest ih =>
    intro _ hnl
    cases rest with
    | nil => exact splitNl_no_nl l (hnl l (by simp))
    | cons l2 rest' =>
      rw [show joinNl (l :: l2 :: rest') = l ++ '\n' :: joinNl (l2 :: rest') from rfl,
        splitNl_append_nl l _ (hnl l (by simp))]
      rw [ih (List.cons_ne_nil _ _) fun x hx => hnl x (by simp [hx])]

theorem calloutHeaderType_ws (l : Str) (h : ∀ c ∈ l, isWsChar c = true) :
    calloutHeaderType l = none := by
  cases l with
  | nil => rfl
  | cons c rest =>
    have hc : isWsChar c = true := h c (by simp)
    rw [calloutHeaderType.eq_def]
    split
    · next heq =>
      exfalso
      have : c = '>' := by injection heq
      rw [this] at hc
      exact absurd hc (by decide)
    · rfl

theorem lineDepth_ws (l : Str) (h : ∀ c ∈ l, isWsChar c = true) :
    lineDepth l = 0 := by
  have : jsTrimStart l = [] := by
    have := dropWhile_ws_append l [] h
    simpa [jsTrimStart] using this
  rw [lineDepth, this]
  rfl

theorem isBlankLine_ws (l : Str) (h : ∀ c ∈ l, isWsChar c = true) :
    isBlankLine l = true := by
  have h1 : lineDepth l = 0 := lineDepth_ws l h
  have h2 : jsTrim l = [] := by
    have hfst : l.dropWhile isWsChar = [] := by
      have := dropWhile_ws_append l [] h
      simpa using this
    simp [jsTrim, hfst]
  simp [isBlankLine, h1, h2]

theorem calloutHeaderType_depth (l : Str) (ty : Str)
    (h : calloutHeaderType l = some ty) : 1 ≤ lineDepth l := by
  cases l with
  | nil => cases h
  | cons c rest =>
    rw [calloutHeaderType.eq_def] at h
    revert h
    split
    · next heq =>
      intro _
      have hc : c = '>' := by injection heq
      subst hc
      rw [lineDepth, jsTrimStart, List.dropWhile_cons]
      norm_num [isWsChar, countQuoteDepth]
    · intro h; cases h

theorem header_not_blank (l : Str) (ty : Str)
    (h : calloutHeaderType l = some ty) : isBlankLine l = false := by
  have := calloutHeaderType_depth l ty h
  have hne : lineDepth l ≠ 0 := by omega
  simp [isBlankLine, hne]

theorem filterCalloutsGo_drop_nested (types : List Str) (sd : Nat)
    (hsd : 1 ≤ sd) :
    ∀ (body : List Str) (tail : List Str),
      (∀ b ∈ body, sd < lineDepth b ∨ (lineDepth b = sd ∧ calloutHeaderType b = none)) →
      filterCalloutsGo types (body ++ tail) (some sd) false
        = filterCalloutsGo types tail (some sd) false := by
  intro body
  induction body with
  | nil => intro tail _; rfl
  | cons b body' ih =>
    intro tail h
    have hb := h b (by simp)
    have hcond : (decide (lineDepth b > sd)
        || (decide (lineDepth b = sd) && (calloutHeaderType b).isNone)) = true := by
      rcases hb with h1 | ⟨h1, h2⟩
      · simp [h1]
      · simp [h1, h2]
    have hblank : isBlankLine b = false := by
      have : lineDepth b ≠ 0 := by
        rcases hb with h1 | ⟨h1, _⟩ <;> omega
      simp [isBlankLine, this]
    rw [List.cons_append, filterCalloutsGo.eq_def]
    dsimp only
    rw [if_pos hcond, hblank]
    exact ih tail fun x hx => h x (by simp [hx])

theorem filterCalloutsGo_keep (types : List Str) :
    ∀ (body : List Str) (pb : Bool),
      (∀ b ∈ body, calloutHeaderType b = none) →
      filterCalloutsGo types body none pb = body := by
  intro body
  induction body with
  | nil => intro pb _; rfl
  | cons b body' ih =>
    intro pb h
    rw [filterCalloutsGo.eq_def]
    dsimp only
    rw [h b (by simp)]
    exact congrArg (b :: ·) (ih _ fun x hx => h x (by simp [hx]))

/-- C7: two consecutive same-depth callout headers, the first of an excluded
type (each possibly followed by strictly-deeper or same-depth non-header
content): with no blank line in between, both callouts and all their content
are dropped; with a separating blank line (and the second callout not itself
excluded), only the first callout is dropped — the blank line, the second
header and its content are retained. -/
theorem claimC7_sibling_callouts (types : List Str) (l1 l2 ty1 ty2 : Str)
    (body1 body2 : List Str)
    (h1 : calloutHeaderType l1 = some ty1)
    (hex1 : isExcludedType types (jsToLower ty1) = true)
    (h2 : calloutHeaderType l2 = some ty2)
    (hd2 : lineDepth l2 = lineDepth l1)
    (hb1 : ∀ b ∈ body1, lineDepth l1 < lineDepth b
      ∨ (lineDepth b = lineDepth l1 ∧ calloutHeaderType b = none))
    (hnl : ∀ l ∈ l1 :: l2 :: (body1 ++ body2), ('\n' : Char) ∉ l) :
    ((∀ b ∈ body2, lineDepth l1 < lineDepth b
        ∨ (lineDepth b = lineDepth l1 ∧ calloutHeaderType b = none)) →
      filterCallouts (joinNl (l1 :: (body1 ++ l2 :: body2))) (some types) = [])
    ∧ (∀ blank : Str, (∀ c ∈ blank, isWsChar c = true) → ('\n' : Char) ∉ blank →
        isExcludedType types (jsToLower ty2) = false →
        (∀ b ∈ body2, calloutHeaderType b = none) →
        filterCallouts (joinNl (l1 :: (body1 ++ blank :: l2 :: body2)))
            (some types)
          = joinNl (blank :: l2 :: body2)) := by
  have htys : ¬types.length = 0 := by
    cases types with
    | nil => rw [isExcludedType] at hex1; simp at hex1
    | cons t ts => simp
  have hsd : 1 ≤ lineDepth l1 := calloutHeaderType_depth l1 ty1 h1
  have hbl1 : isBlankLine l1 = false := header_not_blank l1 ty1 h1
  have hbl2 : isBlankLine l2 = false := header_not_blank l2 ty2 h2
  have hstep : ∀ rest : List Str,
      filterCalloutsGo types (l1 :: rest) none false
        = filterCalloutsGo types rest (some (lineDepth l1)) false := by
    intro rest
    rw [filterCalloutsGo.eq_def]
    dsimp only
    rw [h1]
    dsimp only
    rw [if_pos hex1, hbl1]
  constructor
  · intro hb2
    have hnlA : ∀ x ∈ l1 :: (body1 ++ l2 :: body2), ('\n' : Char) ∉ x := by
      intro x hx
      apply hnl
      simp only [List.mem_cons, List.mem_append] at hx ⊢
      tauto
    rw [filterCallouts]
    rw [if_neg htys]
    rw [splitNl_joinNl _ (List.cons_ne_nil _ _) hnlA]
    rw [hstep, filterCalloutsGo_drop_nested types _ hsd body1 _ hb1]
    rw [filterCalloutsGo.eq_def]
    dsimp only
    have hcond1 : ¬((decide (lineDepth l2 > lineDepth l1)
        || (decide (lineDepth l2 = lineDepth l1)
            && (calloutHeaderType l2).isNone)) = true) := by
      simp [hd2, h2]
    have hcond2 : (decide (lineDepth l2 = lineDepth l1)
        && (calloutHeaderType l2).isSome && !false) = true := by
      simp [hd2, h2]
    rw [if_neg hcond1, if_pos hcond2, hbl2]
    have hdrop2 := filterCalloutsGo_drop_nested types (lineDepth l1) hsd body2 [] hb2
    rw [List.append_nil] at hdrop2
    rw [hdrop2]
    rfl
  · intro blank hblankws hblanknl hnex2 hb2
    have hnlB : ∀ x ∈ l1 :: (body1 ++ blank :: l2 :: body2), ('\n' : Char) ∉ x := by
      intro x hx
      simp only [List.mem_cons, List.mem_append] at hx
      rcases hx with rfl | hx | rfl | rfl | hx
      · exact hnl x (by simp)
      · exact hnl x (by simp [hx])
      · exact hblanknl
      · exact hnl x (by simp)
      · exact hnl x (by simp [hx])
    rw [filterCallouts]
    rw [if_neg htys]
    rw [splitNl_joinNl _ (List.cons_ne_nil _ _) hnlB]
    rw [hstep, filterCalloutsGo_drop_nested types _ hsd body1 _ hb1]
    rw [filterCalloutsGo.eq_def]
    dsimp only
    have hdb : lineDepth blank = 0 := lineDepth_ws blank hblankws
    have hdne : ¬lineDepth blank = lineDepth l1 := by omega
    have hcond1 : ¬((decide (lineDepth blank > lineDepth l1)
        || (decide (lineDepth blank = lineDepth l1)
            && (calloutHeaderType blank).isNone)) = true) := by
      simp [hdb, hdne]
      omega
    have hcond2 : ¬((decide (lineDepth blank = lineDepth l1)
        && (calloutHeaderType blank).isSome && !false) = true) := by
      simp [hdne]
    rw [if_neg hcond1, if_neg hcond2]
    rw [calloutHeaderType_ws blank hblankws]
    dsimp only
    rw [isBlankLine_ws blank hblankws]
    rw [filterCalloutsGo.eq_def]
    dsimp only
    rw [h2]
    dsimp only
    rw [if_neg (by simp [hnex2]), hbl2]
    rw [filterCalloutsGo_keep types body2 false hb2]

theorem claimC7_sibling_callouts_witness :
    (calloutHeaderType "> [!exclude] First".data = some "exclude".data
     ∧ isExcludedType ["exclude".data] (jsToLower "exclude".data) = true
     ∧ calloutHeaderType "> [!warning] Second".data = some "warning".data
     ∧ lineDepth "> [!warning] Second".data
         = lineDepth "> [!exclude] First".data)
    ∧ filterCallouts (joinNl ["> [!exclude] First".data,
        "> First content".data, "> [!warning] Second".data,
        "> Second content".data]) (some ["exclude".data]) = []
    ∧ filterCallouts (joinNl ["> [!exclude] First".data,
        "> First content".data, [], "> [!warning] Second".data,
        "> Second content".data]) (some ["exclude".data])
        = joinNl [[], "> [!warning] Second".data, "> Second content".data] := by
  refine ⟨⟨by decide, by decide, by decide, by decide⟩, ?_, ?_⟩
  · exact (claimC7_sibling_callouts ["exclude".data] "> [!exclude] First".data
      "> [!warning] Second".data "exclude".data "warning".data
      ["> First content".data] ["> Second content".data]
      (by decide) (by decide) (by decide) (by decide) (by decide)
      (by decide)).1 (by decide)
  · exact (claimC7_sibling_callouts ["exclude".data] "> [!exclude] First".data
      "> [!warning] Second".data "exclude".data "warning".data
      ["> First content".data] ["> Second content".data]
      (by decide) (by decide) (by decide) (by decide) (by decide)
      (by decide)).2 [] (by decide) (by decide) (by decide) (by decide)

/-! ## Claim C5: subpath extraction -/

theorem findHeadingIdx_eq_none (hs : List HeadingCache) (t : Str)
    (h : ∀ x ∈ hs, x.heading ≠ t) : findHeadingIdx hs t = none := by
  induction hs with
  | nil => rfl
  | cons x rest ih =>
    rw [findHeadingIdx, if_neg (h x (by simp)), ih fun y hy => h y (by simp [hy])]
    rfl

theorem findHeadingIdx_eq_some (t : Str) :
    ∀ (hs : List HeadingCache) (i : Nat) (heading : HeadingCache),
      hs[i]? = some heading → heading.heading = t →
      (∀ j h', j < i → hs[j]? = some h' → h'.heading ≠ t) →
      findHeadingIdx hs t = some i := by
  intro hs
  induction hs with
  | nil => intro i heading hi; simp at hi
  | cons x rest ih =>
    intro i heading hi hmatch hfirst
    cases i with
    | zero =>
      have : x = heading := by simpa using hi
      subst this
      rw [findHeadingIdx, if_pos hmatch]
    | succ j =>
      have hx : x.heading ≠ t := hfirst 0 x (Nat.succ_pos j) (by simp)
      rw [findHeadingIdx, if_neg hx]
      rw [ih j heading (by simpa using hi) hmatch
        fun m h' hm hm' => hfirst (m + 1) h' (by omega) (by simpa using hm')]
      rfl

theorem sectionEnd_eq_dflt (later : List HeadingCache) (level dflt : Nat)
    (h : ∀ x ∈ later, level < x.level) :
    sectionEnd later level dflt = dflt := by
  rw [sectionEnd, List.find?_eq_none.mpr]
  intro x hx
  simpa using h x hx

theorem sectionEnd_eq_first (level dflt : Nat) :
    ∀ (later : List HeadingCache) (j : Nat) (h' : HeadingCache),
      later[j]? = some h' → h'.level ≤ level →
      (∀ m h'', m < j → later[m]? = some h'' → level < h''.level) →
      sectionEnd later level dflt = h'.position.startOffset := by
  intro later
  induction later with
  | nil => intro j h' hj; simp at hj
  | cons x rest ih =>
    intro j h' hj hle hfirst
    cases j with
    | zero =>
      have : x = h' := by simpa using hj
      subst this
      rw [sectionEnd, List.find?_cons_of_pos _ (by simpa using hle)]
    | succ m =>
      have hx : level < x.level := hfirst 0 x (Nat.succ_pos m) (by simp)
      rw [sectionEnd, List.find?_cons_of_neg _ (by simp; omega)]
      exact ih m h' (by simpa using hj) hle
        fun m' h'' hm hm' => hfirst (m' + 1) h'' (by omega) (by simpa using hm')

/-- C5: `extractSubpathContent` on a `^block` reference returns the trimmed
substring between the block's offsets when the id is in the block table and
the empty string when it is not (no whole-document fallback); on a heading
reference it normalizes `%20` to spaces, matches the heading text exactly
(first match wins), and returns the trimmed span from that heading's end
offset to the start of the first later heading at the same or shallower
level, or to the end of the document when there is none; when no heading
matches it returns the empty string. -/
theorem claimC5_extract (vault : Vault) (file : TFile) (content : Str)
    (cache : FileCache) (hc : vault.getFileCache file.path = some cache) :
    (∀ blockId pos, lookupBlock cache.blocks blockId = some pos →
       extractSubpathContent vault file content ('^' :: blockId)
         = jsTrim (jsSubstring content pos.startOffset pos.endOffset))
    ∧ (∀ blockId, lookupBlock cache.blocks blockId = none →
       extractSubpathContent vault file content ('^' :: blockId) = [])
    ∧ (∀ subpath, ¬subpath.head? = some '^' →
        (∀ h ∈ cache.headings, h.heading ≠ replace20 subpath) →
        extractSubpathContent vault file content subpath = [])
    ∧ (∀ (subpath : Str) (i : Nat) (heading : HeadingCache),
        ¬subpath.head? = some '^' →
        cache.headings[i]? = some heading →
        heading.heading = replace20 subpath →
        (∀ (j : Nat) (h' : HeadingCache), j < i → cache.headings[j]? = some h' →
          h'.heading ≠ replace20 subpath) →
        ((∀ h' ∈ cache.headings.drop (i + 1), heading.level < h'.level) →
          extractSubpathContent vault file content subpath
            = jsTrim (jsSubstring content heading.position.endOffset
                content.length))
        ∧ (∀ (j : Nat) (h' : HeadingCache),
            (cache.headings.drop (i + 1))[j]? = some h' →
            h'.level ≤ heading.level →
            (∀ (m : Nat) (h'' : HeadingCache), m < j →
              (cache.headings.drop (i + 1))[m]? = some h'' →
              heading.level < h''.level) →
            extractSubpathContent vault file content subpath
              = jsTrim (jsSubstring content heading.position.endOffset
                  h'.position.startOffset))) := by
  refine ⟨?_, ?_, ?_, ?_⟩
  · intro blockId pos hb
    simp only [extractSubpathContent]
    rw [hc]
    dsimp only
    rw [if_pos (show ('^' :: blockId : Str).head? = some '^' from rfl)]
    dsimp only [List.tail_cons]
    rw [hb]
  · intro blockId hb
    simp only [extractSubpathContent]
    rw [hc]
    dsimp only
    rw [if_pos (show ('^' :: blockId : Str).head? = some '^' from rfl)]
    dsimp only [List.tail_cons]
    rw [hb]
  · intro subpath hns hnone
    simp only [extractSubpathContent]
    rw [hc]
    dsimp only
    rw [if_neg hns, findHeadingIdx_eq_none _ _ hnone]
  · intro subpath i heading hns hi hmatch hfirst
    constructor
    · intro hnolater
      simp only [extractSubpathContent]
      rw [hc]
      dsimp only
      rw [if_neg hns, findHeadingIdx_eq_some _ _ i heading hi hmatch hfirst]
      dsimp only
      rw [hi]
      dsimp only
      rw [sectionEnd_eq_dflt _ _ _ hnolater]
    · intro j h' hj hle hfirstlvl
      simp only [extractSubpathContent]
      rw [hc]
      dsimp only
      rw [if_neg hns, findHeadingIdx_eq_some _ _ i heading hi hmatch hfirst]
      dsimp only
      rw [hi]
      dsimp only
      rw [sectionEnd_eq_first _ _ _ j h' hj hle hfirstlvl]

/-- Concrete metadata used to exercise `extractSubpathContent`. -/
def extractCache : FileCache :=
  ⟨[], [], [⟨"T".data, 2, ⟨0, 4⟩⟩, ⟨"U".data, 1, ⟨10, 14⟩⟩],
   [("b1".data, ⟨2, 7⟩)]⟩

def fileN : TFile := ⟨"N".data, "md".data⟩

def extractVault : Vault where
  getFileCache p := if p = "N".data then some extractCache else none
  getFirstLinkpathDest _ _ := none
  cachedRead _ := Except.ok []

def extractContent : Str := "0123456789abcdef".data

theorem claimC5_extract_witness :
    extractSubpathContent extractVault fileN extractContent "^b1".data
        = "23456".data
    ∧ extractSubpathContent extractVault fileN extractContent "^zz".data = []
    ∧ extractSubpathContent extractVault fileN extractContent "V".data = []
    ∧ extractSubpathContent extractVault fileN extractContent "T".data
        = "456789".data
    ∧ extractSubpathContent extractVault fileN extractContent "U".data
        = "ef".data := by
  have h := claimC5_extract extractVault fileN extractContent extractCache rfl
  refine ⟨?_, ?_, ?_, ?_, ?_⟩
  · rw [show ("^b1".data : Str) = '^' :: "b1".data from rfl,
      h.1 "b1".data ⟨2, 7⟩ (by decide)]
    decide
  · rw [show ("^zz".data : Str) = '^' :: "zz".data from rfl,
      h.2.1 "zz".data (by decide)]
  · exact h.2.2.1 "V".data (by decide) (by decide)
  · rw [(h.2.2.2 "T".data 0 ⟨"T".data, 2, ⟨0, 4⟩⟩ (by decide) (by decide)
        (by decide) fun j h' hj _ => absurd hj (by omega)).2 0
        ⟨"U".data, 1, ⟨10, 14⟩⟩ (by decide) (by decide)
        fun m h'' hm _ => absurd hm (by omega)]
    decide
  · rw [(h.2.2.2 "U".data 1 ⟨"U".data, 1, ⟨10, 14⟩⟩ (by decide) (by decide)
        (by decide) ?_).1 ?_]
    · decide
    · intro j h' hj hjh
      have hj0 : j = 0 := by omega
      subst hj0
      have h0 : extractCache.headings[0]? = some ⟨"T".data, 2, ⟨0, 4⟩⟩ := by
        decide
      rw [h0] at hjh
      injection hjh with he
      subst he
      decide
    · intro h' hh
      simp [extractCache] at hh

/-! ## Claim C1: a failing read during assembly -/

theorem collectContent_error (vault : Vault) :
    ∀ entries : EmbeddedNotes,
      (∃ k e f, (k, e) ∈ entries ∧ e.file = some f ∧ f.extension = "md".data
        ∧ vault.cachedRead f.path = Except.error ()) →
      (collectContent vault entries).1 = Except.error () := by
  intro entries
  induction entries with
  | nil =>
    rintro ⟨k, e, f, hm, _, _, _⟩
    simp at hm
  | cons ent rest ih =>
    rintro ⟨k, e, f, hm, hf, hext, hread⟩
    obtain ⟨k0, e0⟩ := ent
    rcases List.mem_cons.mp hm with hm0 | hmr
    · have hk : k = k0 ∧ e = e0 := by
        constructor <;> [exact congrArg Prod.fst hm0; exact congrArg Prod.snd hm0]
      obtain ⟨rfl, rfl⟩ := hk
      rw [collectContent.eq_def]
      dsimp only
      rw [hf]
      dsimp only
      rw [if_pos hext, hread]
    · have hrest := ih ⟨k, e, f, hmr, hf, hext, hread⟩
      rw [collectContent.eq_def]
      dsimp only
      cases hf0 : e0.file with
      | none => exact hrest
      | some f0 =>
        dsimp only
        by_cases hext0 : f0.extension = "md".data
        · rw [if_pos hext0]
          cases hr : vault.cachedRead f0.path with
          | error u => cases u; rfl
          | ok c =>
            dsimp only
            rw [hrest]
            rfl
        · rw [if_neg hext0]
          exact hrest

/-- C1 counterexample: in `failVault` the source embeds two resolved markdown
documents, `E` (whose read fails) and `G` (whose read succeeds).  The claim
predicts that `expandLinkedFiles` still completes, returning expanded text
covering `G`; the code has no try/catch around the phase-2 `cachedRead`, so
the failure propagates out of `expandLinkedFiles` and no text is produced. -/
theorem claimC1_counterexample :
    failVault.cachedRead "E".data = Except.error ()
    ∧ failVault.cachedRead "G".data = Except.ok "G body".data
    ∧ expandLinkedFiles failVault fileS "doc".data noExcl false
        = Except.error () := by
  refine ⟨rfl, rfl, ?_⟩
  have hw : walkFrom failVault noExcl false fileS =
      [(fileS.path, originEntry fileS),
       ("E".data, ⟨[], true, some fileE, 1⟩),
       ("G".data, ⟨[], true, some fileG, 1⟩)] :=
    walkFrom_eval failVault noExcl false fileS 10
      ([(fileS.path, originEntry fileS),
        ("E".data, ⟨[], true, some fileE, 1⟩),
        ("G".data, ⟨[], true, some fileG, 1⟩)],
       ["E".data, "G".data]) (by decide)
  show assembleFrom failVault fileS "doc".data
      (walkFrom failVault noExcl false fileS) = Except.error ()
  rw [hw]
  rfl

/-- C1 amended: when the read of any resolved markdown entry of the traversal
map fails, `expandLinkedFiles` does not isolate the failure — it propagates
the error out and returns no expanded text at all. -/
theorem claimC1_amended (vault : Vault) (sourceFile : TFile) (content : Str)
    (excl : Str → Bool) (includeLinks : Bool) (fc : FileCache)
    (hcache : vault.getFileCache sourceFile.path = some fc)
    (hfail : ∃ k e f,
      (k, e) ∈ eraseKey (walkFrom vault excl includeLinks sourceFile)
          sourceFile.path
      ∧ e.file = some f ∧ f.extension = "md".data
      ∧ vault.cachedRead f.path = Except.error ()) :
    expandLinkedFiles vault sourceFile content excl includeLinks
      = Except.error () := by
  simp only [expandLinkedFiles]
  rw [hcache]
  dsimp only
  rw [assembleFrom]
  rw [collectContent_error vault _ hfail]

theorem claimC1_amended_witness :
    failVault.getFileCache fileS.path = some ⟨[], ["E".data, "G".data], [], []⟩
    ∧ expandLinkedFiles failVault fileS "doc".data noExcl false
        = Except.error () := by
  refine ⟨by decide, ?_⟩
  refine claimC1_amended failVault fileS "doc".data noExcl false
    ⟨[], ["E".data, "G".data], [], []⟩ (by decide)
    ⟨"E".data, ⟨[], true, some fileE, 1⟩, fileE, ?_, rfl, rfl, rfl⟩
  have hw : walkFrom failVault noExcl false fileS =
      [(fileS.path, originEntry fileS),
       ("E".data, ⟨[], true, some fileE, 1⟩),
       ("G".data, ⟨[], true, some fileG, 1⟩)] :=
    walkFrom_eval failVault noExcl false fileS 10
      ([(fileS.path, originEntry fileS),
        ("E".data, ⟨[], true, some fileE, 1⟩),
        ("G".data, ⟨[], true, some fileG, 1⟩)],
       ["E".data, "G".data]) (by decide)
  rw [hw]
  decide

/-! ## Claim C3: deduplication invariants of the walk -/

/-- Entries keyed by a resolved file carry that file's path as their key. -/
def pathInv (m : EmbeddedNotes) : Prop :=
  ∀ k e f, (k, e) ∈ m → e.file = some f → f.path = k

theorem lookupKey_eq_none (k : Str) :
    ∀ m : EmbeddedNotes, lookupKey m k = none ↔ k ∉ mapKeys m := by
  intro m
  induction m with
  | nil => simp [lookupKey, mapKeys]
  | cons ent rest ih =>
    obtain ⟨k0, v0⟩ := ent
    rw [lookupKey]
    by_cases hk : k0 = k
    · subst hk
      simp [mapKeys]
    · rw [if_neg hk, mapKeys]
      simp only [List.map_cons, List.mem_cons]
      rw [mapKeys] at ih
      constructor
      · intro h hmem
        rcases hmem with h1 | h1
        · exact hk h1.symm
        · exact (ih.mp h) h1
      · intro h
        exact ih.mpr fun h1 => h (Or.inr h1)

theorem setKey_not_mem (k : Str) (v : EmbeddedLink) :
    ∀ m : EmbeddedNotes, k ∉ mapKeys m → setKey m k v = m ++ [(k, v)] := by
  intro m
  induction m with
  | nil => intro _; rfl
  | cons ent rest ih =>
    obtain ⟨k0, v0⟩ := ent
    intro h
    have hk : ¬k0 = k := by
      intro he
      exact h (by simp [mapKeys, he])
    rw [setKey, if_neg hk, ih fun hm => h (by simp [mapKeys] at hm ⊢; tauto)]
    rfl

theorem mapKeys_append (m1 m2 : EmbeddedNotes) :
    mapKeys (m1 ++ m2) = mapKeys m1 ++ mapKeys m2 := by
  simp [mapKeys]

theorem mapKeys_updateKey (k : Str) (f : EmbeddedLink → EmbeddedLink) :
    ∀ m, mapKeys (updateKey m k f) = mapKeys m := by
  intro m
  induction m with
  | nil => rfl
  | cons ent rest ih =>
    obtain ⟨k0, v0⟩ := ent
    rw [updateKey]
    by_cases hk : k0 = k
    · rw [if_pos hk]
      simp [mapKeys]
    · rw [if_neg hk]
      simp only [mapKeys, List.map_cons]
      rw [mapKeys] at ih
      rw [ih]
      rfl

theorem mem_updateKey (k : Str) (f : EmbeddedLink → EmbeddedLink) :
    ∀ m (k' : Str) (e' : EmbeddedLink), (k', e') ∈ updateKey m k f →
      (k', e') ∈ m ∨ ∃ e, (k', e) ∈ m ∧ e' = f e := by
  intro m
  induction m with
  | nil => intro k' e' h; simp [updateKey] at h
  | cons ent rest ih =>
    obtain ⟨k0, v0⟩ := ent
    intro k' e' h
    rw [updateKey] at h
    by_cases hk : k0 = k
    · rw [if_pos hk] at h
      rcases List.mem_cons.mp h with h0 | hr
      · right
        refine ⟨v0, ?_, ?_⟩
        · have : k' = k0 := congrArg Prod.fst h0
          simp [this]
        · exact congrArg Prod.snd h0
      · left
        exact List.mem_cons_of_mem _ hr
    · rw [if_neg hk] at h
      rcases List.mem_cons.mp h with h0 | hr
      · left
        exact List.mem_cons.mpr (Or.inl h0)
      · rcases ih k' e' hr with h1 | ⟨e, he, hfe⟩
        · left
          exact List.mem_cons_of_mem _ h1
        · right
          exact ⟨e, List.mem_cons_of_mem _ he, hfe⟩

theorem mapKeys_recordRef (s : EmbeddedNotes) (k : Str) (sp : Option Str) :
    mapKeys (recordRef s k sp) = mapKeys s := by
  unfold recordRef
  cases sp with
  | none => exact mapKeys_updateKey _ _ _
  | some x =>
    dsimp only
    by_cases hx : x.isEmpty
    · rw [if_pos hx]
      exact mapKeys_updateKey _ _ _
    · rw [if_neg hx]
      exact mapKeys_updateKey _ _ _

theorem mem_recordRef (s : EmbeddedNotes) (k : Str) (sp : Option Str)
    (k' : Str) (e' : EmbeddedLink) (h : (k', e') ∈ recordRef s k sp) :
    ∃ e, (k', e) ∈ s ∧ e'.file = e.file := by
  have base : ∀ (f : EmbeddedLink → EmbeddedLink), (∀ x, (f x).file = x.file) →
      (k', e') ∈ updateKey s k f → ∃ e, (k', e) ∈ s ∧ e'.file = e.file := by
    intro f hf hm
    rcases mem_updateKey k f s k' e' hm with h1 | ⟨e, he, rfl⟩
    · exact ⟨e', h1, rfl⟩
    · exact ⟨e, he, hf e⟩
  unfold recordRef at h
  cases sp with
  | none =>
    exact base (fun r => { r with hasFullReference := true }) (fun x => rfl) h
  | some x =>
    dsimp only at h
    by_cases hx : x.isEmpty
    · rw [if_pos hx] at h
      exact base (fun r => { r with hasFullReference := true }) (fun x => rfl) h
    · rw [if_neg hx] at h
      exact base (fun r => { r with subpaths := addSubpath r.subpaths x })
        (fun x => rfl) h

theorem pathInv_recordRef (s : EmbeddedNotes) (k : Str) (sp : Option Str)
    (h : pathInv s) : pathInv (recordRef s k sp) := by
  intro k' e' f hm hf
  obtain ⟨e, he, hfile⟩ := mem_recordRef s k sp k' e' hm
  exact h k' e f he (by rw [← hfile]; exact hf)

theorem pathInv_append_unresolved (s : EmbeddedNotes) (k : Str)
    (v : EmbeddedLink) (hv : v.file = none) (h : pathInv s) :
    pathInv (s ++ [(k, v)]) := by
  intro k' e' f hm hf
  rcases List.mem_append.mp hm with h1 | h1
  · exact h k' e' f h1 hf
  · have h2 : k' = k ∧ e' = v := by
      simp at h1
      exact h1
    rw [h2.2, hv] at hf
    cases hf

theorem pathInv_append_resolved (s : EmbeddedNotes) (tf : TFile)
    (v : EmbeddedLink) (hv : v.file = some tf) (h : pathInv s) :
    pathInv (s ++ [(tf.path, v)]) := by
  intro k' e' f hm hf
  rcases List.mem_append.mp hm with h1 | h1
  · exact h k' e' f h1 hf
  · have h2 : k' = tf.path ∧ e' = v := by
      simp at h1
      exact h1
    rw [h2.2, hv] at hf
    injection hf with hf
    rw [← hf, h2.1]

theorem nodup_keys_append (s : EmbeddedNotes) (k : Str) (v : EmbeddedLink)
    (hn : (mapKeys s).Nodup) (hk : k ∉ mapKeys s) :
    (mapKeys (s ++ [(k, v)])).Nodup := by
  rw [mapKeys_append]
  simp only [List.nodup_append, mapKeys, List.map_cons, List.map_nil]
  refine ⟨hn, by simp, ?_⟩
  intro a ha hmem
  have : a = k := by simpa using hmem
  rw [this] at ha
  exact hk ha

theorem processLinks_inv (vault : Vault) (excl : Str → Bool) (srcPath : Str)
    (d : Nat) :
    ∀ (links : List Str) (seen : EmbeddedNotes),
      (mapKeys seen).Nodup → pathInv seen →
      ((mapKeys (processLinks vault excl srcPath d links seen).1).Nodup
       ∧ pathInv (processLinks vault excl srcPath d links seen).1
       ∧ (∀ k ∈ mapKeys seen,
            k ∈ mapKeys (processLinks vault excl srcPath d links seen).1)
       ∧ (∀ tf ∈ (processLinks vault excl srcPath d links seen).2,
            tf.path ∈ mapKeys (processLinks vault excl srcPath d links seen).1
            ∧ tf.path ∉ mapKeys seen)
       ∧ ((processLinks vault excl srcPath d links seen).2.map (·.path)).Nodup) := by
  intro links
  induction links with
  | nil =>
    intro seen hn hp
    refine ⟨hn, hp, fun k hk => hk, ?_, ?_⟩ <;> simp [processLinks]
  | cons link rest ih =>
    intro seen hn hp
    rw [processLinks.eq_def]
    dsimp only
    by_cases hexcl : excl link = true
    · rw [if_pos hexcl]
      exact ih seen hn hp
    · rw [if_neg hexcl]
      by_cases hseen : (lookupKey seen link).isSome = true
      · rw [if_pos hseen]
        exact ih seen hn hp
      · rw [if_neg hseen]
        rcases hpl : parseLinkReference link with ⟨path, subpath⟩
        dsimp only
        cases hres : vault.getFirstLinkpathDest path srcPath with
        | none =>
          dsimp only
          have hnone : lookupKey seen link = none := by
            cases hlk : lookupKey seen link with
            | none => rfl
            | some v => rw [hlk] at hseen; simp at hseen
          have hnotmem : link ∉ mapKeys seen :=
            (lookupKey_eq_none link seen).mp hnone
          rw [setKey_not_mem link _ seen hnotmem]
          obtain ⟨ihn, ihp, ihsub, ihpush, ihnd⟩ :=
            ih (seen ++ [(link, ⟨[], false, none, d + 1⟩)])
              (nodup_keys_append seen link _ hn hnotmem)
              (pathInv_append_unresolved seen link _ rfl hp)
          refine ⟨ihn, ihp, ?_, ?_, ihnd⟩
          · intro k hk
            exact ihsub k (by rw [mapKeys_append]; exact List.mem_append_left _ hk)
          · intro tf htf
            refine ⟨(ihpush tf htf).1, ?_⟩
            intro hmem
            exact (ihpush tf htf).2
              (by rw [mapKeys_append]; exact List.mem_append_left _ hmem)
        | some tf =>
          dsimp only
          cases href : lookupKey seen tf.path with
          | some r =>
            dsimp only
            obtain ⟨ihn, ihp, ihsub, ihpush, ihnd⟩ :=
              ih (recordRef seen tf.path subpath)
                (by rw [mapKeys_recordRef]; exact hn)
                (pathInv_recordRef seen tf.path subpath hp)
            refine ⟨ihn, ihp, ?_, ?_, ihnd⟩
            · intro k hk
              exact ihsub k (by rw [mapKeys_recordRef]; exact hk)
            · intro tf' htf'
              refine ⟨(ihpush tf' htf').1, ?_⟩
              intro hmem
              exact (ihpush tf' htf').2 (by rw [mapKeys_recordRef]; exact hmem)
          | none =>
            dsimp only
            have hnotmem : tf.path ∉ mapKeys seen :=
              (lookupKey_eq_none tf.path seen).mp href
            have hset := setKey_not_mem tf.path
              (⟨[], false, some tf, d + 1⟩ : EmbeddedLink) seen hnotmem
            rw [hset]
            have hkeys2 : mapKeys (recordRef
                (seen ++ [(tf.path, ⟨[], false, some tf, d + 1⟩)]) tf.path subpath)
                = mapKeys seen ++ [tf.path] := by
              rw [mapKeys_recordRef, mapKeys_append]
              rfl
            obtain ⟨ihn, ihp, ihsub, ihpush, ihnd⟩ :=
              ih (recordRef (seen ++ [(tf.path, ⟨[], false, some tf, d + 1⟩)])
                    tf.path subpath)
                (by rw [hkeys2]
                    have := nodup_keys_append seen tf.path
                      (⟨[], false, some tf, d + 1⟩ : EmbeddedLink) hn hnotmem
                    rw [mapKeys_append] at this
                    exact this)
                (pathInv_recordRef _ _ _
                  (pathInv_append_resolved seen tf
                    (⟨[], false, some tf, d + 1⟩ : EmbeddedLink) rfl hp))
            have hmem2 : tf.path ∈ mapKeys (recordRef
                (seen ++ [(tf.path, ⟨[], false, some tf, d + 1⟩)]) tf.path subpath) := by
              rw [hkeys2]
              exact List.mem_append_right _ (by simp)
            refine ⟨ihn, ihp, ?_, ?_, ?_⟩
            · intro k hk
              exact ihsub k (by rw [hkeys2]; exact List.mem_append_left _ hk)
            · intro tf' htf'
              rcases List.mem_cons.mp htf' with rfl | htl
              · exact ⟨ihsub _ hmem2, hnotmem⟩
              · refine ⟨(ihpush tf' htl).1, ?_⟩
                intro hmem
                exact (ihpush tf' htl).2
                  (by rw [hkeys2]; exact List.mem_append_left _ hmem)
            · rw [List.map_cons]
              refine List.Nodup.cons ?_ ihnd
              intro hmem
              rcases List.mem_map.mp hmem with ⟨tf', htl, hpath⟩
              exact (ihpush tf' htl).2 (hpath ▸ hmem2)

theorem walkLoop_inv (vault : Vault) (excl : Str → Bool) (incl : Bool) :
    ∀ (q : List (Option TFile × Nat)) (seen : EmbeddedNotes),
      (mapKeys seen).Nodup → pathInv seen →
      ((mapKeys (walkLoop vault excl incl q seen).1).Nodup
       ∧ pathInv (walkLoop vault excl incl q seen).1
       ∧ (∀ k ∈ mapKeys seen, k ∈ mapKeys (walkLoop vault excl incl q seen).1)
       ∧ (walkLoop vault excl incl q seen).2.Nodup
       ∧ (∀ p ∈ (walkLoop vault excl incl q seen).2, p ∉ mapKeys seen)) := by
  intro q seen
  induction q, seen using walkLoop.induct vault excl incl with
  | case1 seen =>
    intro hn hp
    rw [walkLoop]
    exact ⟨hn, hp, fun k hk => hk, List.nodup_nil, by simp⟩
  | case2 _dd fileQueue seenLinks ih =>
    intro hn hp
    rw [walkLoop]
    exact ih hn hp
  | case3 f d fileQueue seenLinks h ih =>
    intro hn hp
    rw [walkLoop, if_pos h]
    exact ih hn hp
  | case4 f d fileQueue seenLinks h heq ih =>
    intro hn hp
    rw [walkLoop, if_neg h, heq]
    exact ih hn hp
  | case5 f d fileQueue seenLinks h fileCache heq ih =>
    intro hn hp
    rw [walkLoop, if_neg h, heq]
    dsimp only
    obtain ⟨pn, pp, psub, ppush, pnd⟩ :=
      processLinks_inv vault excl f.path d
        ((if incl then fileCache.links else []) ++ fileCache.embeds)
        seenLinks hn hp
    obtain ⟨wn, wp, wsub, wnd, wnot⟩ :=
      ih (processLinks vault excl f.path d
        ((if incl then fileCache.links else []) ++ fileCache.embeds) seenLinks)
        pn pp
    refine ⟨wn, wp, ?_, ?_, ?_⟩
    · intro k hk
      exact wsub k (psub k hk)
    · refine List.Nodup.append pnd wnd ?_
      intro a ha hw
      rcases List.mem_map.mp ha with ⟨tf, htf, rfl⟩
      exact wnot _ hw ((ppush tf htf).1)
    · intro p hp'
      rcases List.mem_append.mp hp' with hp1 | hp2
      · rcases List.mem_map.mp hp1 with ⟨tf, htf, rfl⟩
        exact (ppush tf htf).2
      · intro hmem
        exact wnot p hp2 (psub p hmem)

theorem collectContent_reads_sublist (vault : Vault) :
    ∀ entries : EmbeddedNotes, pathInv entries →
      List.Sublist (collectContent vault entries).2 (mapKeys entries) := by
  intro entries
  induction entries with
  | nil => intro _; simp [collectContent, mapKeys]
  | cons ent rest ih =>
    obtain ⟨k0, e0⟩ := ent
    intro hp
    have hrest : pathInv rest := fun k e f hm hf =>
      hp k e f (List.mem_cons_of_mem _ hm) hf
    rw [collectContent.eq_def]
    dsimp only
    cases hf0 : e0.file with
    | none => exact List.Sublist.cons _ (ih hrest)
    | some f0 =>
      dsimp only
      have hpath : f0.path = k0 := hp k0 e0 f0 (by simp) hf0
      by_cases hext : f0.extension = "md".data
      · rw [if_pos hext]
        cases hr : vault.cachedRead f0.path with
        | error u =>
          dsimp only
          rw [show mapKeys ((k0, e0) :: rest) = k0 :: mapKeys rest from rfl,
            ← hpath]
          exact List.Sublist.cons₂ _ (List.nil_sublist _)
        | ok c =>
          dsimp only
          rw [show mapKeys ((k0, e0) :: rest) = k0 :: mapKeys rest from rfl,
            ← hpath]
          exact List.Sublist.cons₂ _ (ih hrest)
      · rw [if_neg hext]
        exact List.Sublist.cons _ (ih hrest)

theorem mapKeys_eraseKey_sublist (k : Str) :
    ∀ m : EmbeddedNotes, List.Sublist (mapKeys (eraseKey m k)) (mapKeys m) := by
  intro m
  induction m with
  | nil => simp [eraseKey]
  | cons ent rest ih =>
    obtain ⟨k0, v0⟩ := ent
    rw [eraseKey]
    by_cases hk : k0 = k
    · rw [if_pos hk]
      exact List.Sublist.cons _ (List.Sublist.refl _)
    · rw [if_neg hk]
      exact List.Sublist.cons₂ _ ih

theorem mem_eraseKey (k : Str) :
    ∀ (m : EmbeddedNotes) (k' : Str) (e' : EmbeddedLink),
      (k', e') ∈ eraseKey m k → (k', e') ∈ m := by
  intro m
  induction m with
  | nil => intro k' e' h; simp [eraseKey] at h
  | cons ent rest ih =>
    obtain ⟨k0, v0⟩ := ent
    intro k' e' h
    rw [eraseKey] at h
    by_cases hk : k0 = k
    · rw [if_pos hk] at h
      exact List.mem_cons_of_mem _ h
    · rw [if_neg hk] at h
      rcases List.mem_cons.mp h with h0 | hr
      · exact List.mem_cons.mpr (Or.inl h0)
      · exact List.mem_cons_of_mem _ (ih k' e' hr)

/-- C3: the walk's deduplication invariants, for every vault, exclusion
predicate, mode and source file.  The traversal map has pairwise-distinct
keys; every entry holding a resolved file is keyed by that file's path (so a
resolved document has at most one entry, keyed by its resolved identity); the
queue trace shows every file is enqueued for expansion at most once; and in
phase 2 each path is content-read at most once, so no document's content can
be gathered twice. -/
theorem claimC3_dedup (vault : Vault) (excl : Str → Bool) (incl : Bool)
    (sourceFile : TFile) :
    (mapKeys (walkFrom vault excl incl sourceFile)).Nodup
    ∧ pathInv (walkFrom vault excl incl sourceFile)
    ∧ (walkRun vault excl incl sourceFile).2.Nodup
    ∧ (collectContent vault
        (eraseKey (walkFrom vault excl incl sourceFile)
          sourceFile.path)).2.Nodup := by
  have h0n : (mapKeys [(sourceFile.path, originEntry sourceFile)]).Nodup := by
    simp [mapKeys]
  have h0p : pathInv [(sourceFile.path, originEntry sourceFile)] := by
    intro k e f hm hf
    have hk : k = sourceFile.path ∧ e = originEntry sourceFile := by
      simpa using hm
    obtain ⟨rfl, rfl⟩ := hk
    simp [originEntry] at hf
    rw [← hf]
  obtain ⟨wn, wp, _, wtr, _⟩ :=
    walkLoop_inv vault excl incl [(some sourceFile, 0)]
      [(sourceFile.path, originEntry sourceFile)] h0n h0p
  have herase_n :
      (mapKeys (eraseKey (walkFrom vault excl incl sourceFile)
        sourceFile.path)).Nodup :=
    List.Sublist.nodup (mapKeys_eraseKey_sublist _ _) wn
  have herase_p :
      pathInv (eraseKey (walkFrom vault excl incl sourceFile)
        sourceFile.path) :=
    fun k e f hm hf => wp k e f (mem_eraseKey _ _ _ _ hm) hf
  exact ⟨wn, wp, wtr,
    List.Sublist.nodup (collectContent_reads_sublist vault _ herase_p) herase_n⟩

/-! ## Claim C2: full-reference precedence -/

/-- C2 counterexample: in `collisionVault` the source embeds `X#H` and then a
bare `X` whose raw link text coincides with `X`'s resolved path.  When the
bare link is scanned, the raw-text dedup check `seenLinks.has(linkKey)` finds
the entry already keyed `X` and skips the link, so `hasFullReference` is
never raised: the assembled blocks contain only the heading snippet and no
full-document block for `X`, although `X` is referenced both with and without
a subpath. -/
theorem claimC2_counterexample :
    collisionVault.getFileCache fileS.path
        = some ⟨[], ["X#H".data, "X".data], [], []⟩
    ∧ parseLinkReference "X#H".data = ("X".data, some "H".data)
    ∧ parseLinkReference "X".data = ("X".data, none)
    ∧ collisionVault.getFirstLinkpathDest "X".data fileS.path = some fileX
    ∧ lookupKey (walkFrom collisionVault noExcl false fileS) "X".data
        = some ⟨["H".data], false, some fileX, 1⟩
    ∧ (collectContent collisionVault
        (eraseKey (walkFrom collisionVault noExcl false fileS)
          fileS.path)).1
        = Except.ok [entryBegin ("X#H".data), "BODY".data, entryEnd]
    ∧ entryBegin "X".data ∉ [entryBegin ("X#H".data), "BODY".data, entryEnd] := by
  have hw : walkFrom collisionVault noExcl false fileS =
      [(fileS.path, originEntry fileS),
       ("X".data, ⟨["H".data], false, some fileX, 1⟩)] :=
    walkFrom_eval collisionVault noExcl false fileS 10
      ([(fileS.path, originEntry fileS),
        ("X".data, ⟨["H".data], false, some fileX, 1⟩)],
       ["X".data]) (by decide)
  refine ⟨by decide, by decide, by decide, by decide, ?_, ?_, by decide⟩
  · rw [hw]
    decide
  · rw [hw]
    rfl

theorem entryBegin_inj (a b : Str) (h : entryBegin a = entryBegin b) : a = b := by
  rw [entryBegin, entryBegin] at h
  have h1 := List.append_cancel_right h
  exact List.append_cancel_left h1

theorem entryEnd_ne_entryBegin (q : Str) : entryEnd ≠ entryBegin q := by
  intro h
  have h6 := congrArg (fun l : Str => l[6]?) h
  dsimp only at h6
  rw [entryBegin] at h6
  rw [List.getElem?_append_left
    (show 6 < ("===== BEGIN ENTRY: ".data ++ q).length by
      rw [List.length_append]
      have h19 : ("===== BEGIN ENTRY: ".data : Str).length = 19 := by decide
      omega)] at h6
  rw [List.getElem?_append_left
    (show 6 < ("===== BEGIN ENTRY: ".data : Str).length by decide)] at h6
  exact absurd h6 (by decide)

theorem ne_entryBegin_of_head (s : Str) (h : ¬s.head? = some '=') (q : Str) :
    s ≠ entryBegin q := by
  intro he
  apply h
  rw [he, entryBegin]
  rfl

theorem hash_split_inj :
    ∀ (a b c d : Str), ('#' : Char) ∉ a → ('#' : Char) ∉ b →
      a ++ '#' :: c = b ++ '#' :: d → a = b ∧ c = d := by
  intro a
  induction a with
  | nil =>
    intro b c d _ hb h
    cases b with
    | nil =>
      simp at h
      exact ⟨rfl, h⟩
    | cons y b' =>
      exfalso
      rw [List.nil_append, List.cons_append] at h
      have hy : '#' = y := by injection h
      exact hb (by simp [← hy])
  | cons x a' ih =>
    intro b c d ha hb h
    cases b with
    | nil =>
      exfalso
      rw [List.nil_append, List.cons_append] at h
      have hx : x = '#' := by injection h
      exact ha (by simp [hx])
    | cons y b' =>
      rw [List.cons_append, List.cons_append] at h
      have hx : x = y := by injection h
      have ht : a' ++ '#' :: c = b' ++ '#' :: d := by injection h
      obtain ⟨h1, h2⟩ := ih b' c d (fun hm => ha (by simp [hm]))
        (fun hm => hb (by simp [hm])) ht
      exact ⟨by rw [hx, h1], h2⟩

/-- Side condition for the assembly analysis: no read content and no
extracted snippet is literally a sentinel header line. -/
def contentClean (vault : Vault) (entries : EmbeddedNotes) : Prop :=
  ∀ k' e' f' c', (k', e') ∈ entries → e'.file = some f' →
    vault.cachedRead f'.path = Except.ok c' →
    (∀ q, c' ≠ entryBegin q)
    ∧ ∀ sp ∈ e'.subpaths, ∀ q,
        extractSubpathContent vault f' c' sp ≠ entryBegin q

theorem collect_no_p (vault : Vault) (p : Str) (hp : ('#' : Char) ∉ p) :
    ∀ (entries : EmbeddedNotes) (blocks : List Str),
      (collectContent vault entries).1 = Except.ok blocks →
      pathInv entries →
      (∀ k ∈ mapKeys entries, k ≠ p ∧ ('#' : Char) ∉ k) →
      contentClean vault entries →
      (∀ t : Str, (t = p ∨ ∃ sp, t = p ++ '#' :: sp) → entryBegin t ∉ blocks) := by
  intro entries
  induction entries with
  | nil =>
    intro blocks hok _ _ _ t _
    have hb : blocks = [] := by
      rw [collectContent] at hok
      injection hok with h
      exact h.symm
    simp [hb]
  | cons ent rest ih =>
    obtain ⟨k0, e0⟩ := ent
    intro blocks hok hpinv hkeys hclean
    have hpinv' : pathInv rest := fun k e f hm hf =>
      hpinv k e f (List.mem_cons_of_mem _ hm) hf
    have hkeys' : ∀ k ∈ mapKeys rest, k ≠ p ∧ ('#' : Char) ∉ k :=
      fun k hk => hkeys k (by simp [mapKeys] at hk ⊢; tauto)
    have hclean' : contentClean vault rest := fun k' e' f' c' hm =>
      hclean k' e' f' c' (List.mem_cons_of_mem _ hm)
    rw [collectContent.eq_def] at hok
    dsimp only at hok
    cases hf0 : e0.file with
    | none =>
      rw [hf0] at hok
      exact ih blocks hok hpinv' hkeys' hclean'
    | some f0 =>
      rw [hf0] at hok
      dsimp only at hok
      by_cases hext : f0.extension = "md".data
      · rw [if_pos hext] at hok
        cases hr : vault.cachedRead f0.path with
        | error u =>
          rw [hr] at hok
          exact absurd hok (by simp)
        | ok c =>
          rw [hr] at hok
          dsimp only at hok
          cases hrest : (collectContent vault rest).1 with
          | error e =>
            rw [hrest] at hok
            exact absurd hok (by simp [Except.map])
          | ok tail =>
            rw [hrest] at hok
            simp only [Except.map, Except.ok.injEq] at hok
            have ihtail := ih tail hrest hpinv' hkeys' hclean'
            have hpathk : f0.path = k0 := hpinv k0 e0 f0 (by simp) hf0
            have hk0 : k0 ≠ p ∧ ('#' : Char) ∉ k0 := hkeys k0 (by simp [mapKeys])
            have hcl := hclean k0 e0 f0 c (by simp) hf0 hr
            intro t ht
            rw [← hok]
            intro hmem
            rcases List.mem_append.mp hmem with hhd | htl
            · by_cases hfull : e0.hasFullReference = true
              · rw [if_pos hfull] at hhd
                simp only [List.mem_cons, List.not_mem_nil, or_false] at hhd
                rcases hhd with h1 | h1 | h1
                · -- entryBegin t = entryBegin f0.path
                  have := entryBegin_inj _ _ h1.symm
                  rcases ht with rfl | ⟨sp, rfl⟩
                  · exact hk0.1 (by rw [← hpathk, this])
                  · exact hk0.2 (by
                      rw [← hpathk, this]
                      exact List.mem_append_right _ (by simp))
                · exact hcl.1 t h1.symm
                · exact entryEnd_ne_entryBegin t h1.symm
              · rw [if_neg hfull] at hhd
                rcases List.mem_flatMap.mp hhd with ⟨sp', hsp', hin⟩
                simp only [List.mem_cons, List.not_mem_nil, or_false] at hin
                rcases hin with h1 | h1 | h1
                · have heq := entryBegin_inj _ _ h1.symm
                  rcases ht with rfl | ⟨sp, rfl⟩
                  · exact hp (by
                      rw [← heq]
                      exact List.mem_append_right _ (by simp))
                  · obtain ⟨hk, _⟩ := hash_split_inj f0.path p sp' sp
                      (by rw [hpathk]; exact hk0.2) hp heq
                    exact hk0.1 (by rw [← hpathk, hk])
                · exact hcl.2 sp' hsp' t h1.symm
                · exact entryEnd_ne_entryBegin t h1.symm
            · exact ihtail t ht htl
      · rw [if_neg hext] at hok
        exact ih blocks hok hpinv' hkeys' hclean'

theorem collect_append_ok (vault : Vault) :
    ∀ (xs ys : EmbeddedNotes) (blocks : List Str),
      (collectContent vault (xs ++ ys)).1 = Except.ok blocks →
      ∃ bx bys, (collectContent vault xs).1 = Except.ok bx
        ∧ (collectContent vault ys).1 = Except.ok bys
        ∧ blocks = bx ++ bys := by
  intro xs
  induction xs with
  | nil =>
    intro ys blocks hok
    exact ⟨[], blocks, rfl, hok, rfl⟩
  | cons ent rest ih =>
    obtain ⟨k0, e0⟩ := ent
    intro ys blocks hok
    rw [List.cons_append, collectContent.eq_def] at hok
    dsimp only at hok
    rw [collectContent.eq_def]
    dsimp only
    cases hf0 : e0.file with
    | none =>
      rw [hf0] at hok
      exact ih ys blocks hok
    | some f0 =>
      rw [hf0] at hok
      dsimp only at hok
      dsimp only
      by_cases hext : f0.extension = "md".data
      · rw [if_pos hext] at hok
        rw [if_pos hext]
        cases hr : vault.cachedRead f0.path with
        | error u =>
          rw [hr] at hok
          exact absurd hok (by simp)
        | ok c =>
          rw [hr] at hok
          dsimp only at hok
          dsimp only
          cases hrest : (collectContent vault (rest ++ ys)).1 with
          | error e =>
            rw [hrest] at hok
            exact absurd hok (by simp [Except.map])
          | ok tail =>
            rw [hrest] at hok
            simp only [Except.map, Except.ok.injEq] at hok
            obtain ⟨bx, bys, hx, hy, htail⟩ := ih ys tail hrest
            rw [hx]
            refine ⟨_ ++ bx, bys, rfl, hy, ?_⟩
            rw [← hok, htail, List.append_assoc]
      · rw [if_neg hext] at hok
        rw [if_neg hext]
        exact ih ys blocks hok

/-- C2 amended: `hasFullReference = true` always wins at assembly time.  If a
document's traversal entry carries a full reference, the assembled blocks
contain its full text exactly once, wrapped in the sentinel naming its path,
and no subpath snippet of it — regardless of any subpaths also recorded.  (As
`claimC2_counterexample` shows, the walk itself does not always record the
full reference: a bare link whose raw text already occurs as a map key is
skipped, so the claim's order-independence fails at the walk level.)
Side conditions: distinct keys, resolved entries keyed by their file paths,
no key containing `#`, and no gathered content string equal to a sentinel
header line. -/
theorem claimC2_amended (vault : Vault) (entries : EmbeddedNotes) (p : Str)
    (e : EmbeddedLink) (f : TFile) (c : Str) (blocks : List Str)
    (hmem : (p, e) ∈ entries)
    (hfull : e.hasFullReference = true)
    (hfile : e.file = some f)
    (hext : f.extension = "md".data)
    (hread : vault.cachedRead f.path = Except.ok c)
    (hkeys : (mapKeys entries).Nodup)
    (hpinv : pathInv entries)
    (hnohash : ∀ k ∈ mapKeys entries, ('#' : Char) ∉ k)
    (hclean : contentClean vault entries)
    (hok : (collectContent vault entries).1 = Except.ok blocks) :
    blocks.count (entryBegin p) = 1
    ∧ (∀ sp, entryBegin (p ++ '#' :: sp) ∉ blocks)
    ∧ ∃ pre post, blocks = pre ++ entryBegin p :: c :: entryEnd :: post := by
  have hfp : f.path = p := hpinv p e f hmem hfile
  have hpmem : p ∈ mapKeys entries := List.mem_map_of_mem _ hmem
  have hphash : ('#' : Char) ∉ p := hnohash p hpmem
  have hcp : ∀ q, c ≠ entryBegin q := (hclean p e f c hmem hfile hread).1
  obtain ⟨E1, E2, hsplit⟩ := List.append_of_mem hmem
  subst hsplit
  have hkeyseq : mapKeys (E1 ++ (p, e) :: E2) = mapKeys E1 ++ p :: mapKeys E2 := by
    simp [mapKeys]
  have hkeys' := hkeys
  rw [hkeyseq] at hkeys'
  obtain ⟨hn1, hn2, hdisj⟩ := List.nodup_append.mp hkeys'
  have hpE1 : p ∉ mapKeys E1 := fun hm => hdisj hm (by simp)
  have hpE2 : p ∉ mapKeys E2 := (List.nodup_cons.mp hn2).1
  obtain ⟨bx, brest, hx, hrest2, hsplitb⟩ :=
    collect_append_ok vault E1 ((p, e) :: E2) blocks hok
  rw [collectContent.eq_def] at hrest2
  dsimp only at hrest2
  rw [hfile] at hrest2
  dsimp only at hrest2
  rw [if_pos hext, hread] at hrest2
  dsimp only at hrest2
  cases hE2 : (collectContent vault E2).1 with
  | error u =>
    rw [hE2] at hrest2
    exact absurd hrest2 (by simp [Except.map])
  | ok b2 =>
    rw [hE2] at hrest2
    simp only [Except.map, Except.ok.injEq] at hrest2
    rw [if_pos hfull, hfp] at hrest2
    -- restrictions of the hypotheses to E1 and E2
    have hmemE1 : ∀ x : Str × EmbeddedLink, x ∈ E1 → x ∈ E1 ++ (p, e) :: E2 :=
      fun x hx' => List.mem_append_left _ hx'
    have hmemE2 : ∀ x : Str × EmbeddedLink, x ∈ E2 → x ∈ E1 ++ (p, e) :: E2 :=
      fun x hx' => List.mem_append_right _ (List.mem_cons_of_mem _ hx')
    have hpinv1 : pathInv E1 := fun k e' f' hm hf =>
      hpinv k e' f' (hmemE1 _ hm) hf
    have hpinv2 : pathInv E2 := fun k e' f' hm hf =>
      hpinv k e' f' (hmemE2 _ hm) hf
    have hkeymem1 : ∀ k ∈ mapKeys E1, k ∈ mapKeys (E1 ++ (p, e) :: E2) := by
      intro k hk
      rw [hkeyseq]
      exact List.mem_append_left _ hk
    have hkeymem2 : ∀ k ∈ mapKeys E2, k ∈ mapKeys (E1 ++ (p, e) :: E2) := by
      intro k hk
      rw [hkeyseq]
      exact List.mem_append_right _ (List.mem_cons_of_mem _ hk)
    have hk1 : ∀ k ∈ mapKeys E1, k ≠ p ∧ ('#' : Char) ∉ k := by
      intro k hk
      exact ⟨fun he => hpE1 (he ▸ hk), hnohash k (hkeymem1 k hk)⟩
    have hk2 : ∀ k ∈ mapKeys E2, k ≠ p ∧ ('#' : Char) ∉ k := by
      intro k hk
      exact ⟨fun he => hpE2 (he ▸ hk), hnohash k (hkeymem2 k hk)⟩
    have hclean1 : contentClean vault E1 := fun k' e' f' c' hm =>
      hclean k' e' f' c' (hmemE1 _ hm)
    have hclean2 : contentClean vault E2 := fun k' e' f' c' hm =>
      hclean k' e' f' c' (hmemE2 _ hm)
    have hA1 := collect_no_p vault p hphash E1 bx hx hpinv1 hk1 hclean1
    have hA2 := collect_no_p vault p hphash E2 b2 hE2 hpinv2 hk2 hclean2
    have hsubne : ∀ sp : Str, entryBegin (p ++ '#' :: sp) ≠ entryBegin p := by
      intro sp h
      have := entryBegin_inj _ _ h
      have hlen := congrArg List.length this
      simp [List.length_append] at hlen
    refine ⟨?_, ?_, bx, b2, ?_⟩
    · rw [hsplitb, ← hrest2]
      rw [List.count_append, List.count_append]
      have h1 : bx.count (entryBegin p) = 0 :=
        List.count_eq_zero.mpr (hA1 p (Or.inl rfl))
      have h2 : b2.count (entryBegin p) = 0 :=
        List.count_eq_zero.mpr (hA2 p (Or.inl rfl))
      have hmid : List.count (entryBegin p) [entryBegin p, c, entryEnd] = 1 := by
        have hc : ¬c = entryBegin p := hcp p
        have hend : ¬entryEnd = entryBegin p := entryEnd_ne_entryBegin p
        simp [List.count_cons, hc, hend]
      rw [h1, h2, hmid]
    · intro sp
      rw [hsplitb, ← hrest2]
      intro hmem'
      rcases List.mem_append.mp hmem' with h1 | h1
      · exact hA1 _ (Or.inr ⟨sp, rfl⟩) h1
      · rcases List.mem_append.mp h1 with h2 | h2
        · simp only [List.mem_cons, List.not_mem_nil, or_false] at h2
          rcases h2 with h3 | h3 | h3
          · exact hsubne sp h3
          · exact hcp _ h3.symm
          · exact entryEnd_ne_entryBegin _ h3.symm
        · exact hA2 _ (Or.inr ⟨sp, rfl⟩) h2
    · rw [hsplitb, ← hrest2]
      rfl

theorem claimC2_amended_witness :
    [entryBegin "G".data, "G body".data, entryEnd].count (entryBegin "G".data)
        = 1
    ∧ (∀ sp, entryBegin ("G".data ++ '#' :: sp)
        ∉ [entryBegin "G".data, "G body".data, entryEnd])
    ∧ ∃ pre post, [entryBegin "G".data, "G body".data, entryEnd]
        = pre ++ entryBegin "G".data :: "G body".data :: entryEnd :: post := by
  refine claimC2_amended failVault [("G".data, ⟨[], true, some fileG, 1⟩)]
    "G".data ⟨[], true, some fileG, 1⟩ fileG "G body".data
    [entryBegin "G".data, "G body".data, entryEnd]
    (by decide) rfl rfl rfl rfl (by decide) ?_ (by decide) ?_ rfl
  · intro k e' f' hm hf
    have hk : k = "G".data ∧ e' = ⟨[], true, some fileG, 1⟩ := by simpa using hm
    obtain ⟨rfl, rfl⟩ := hk
    have hf' : f' = fileG := by
      have : some fileG = some f' := hf
      injection this with h
      exact h.symm
    rw [hf']
    rfl
  · intro k' e' f' c' hm hf hr
    have hk : k' = "G".data ∧ e' = ⟨[], true, some fileG, 1⟩ := by simpa using hm
    obtain ⟨rfl, rfl⟩ := hk
    have hf' : f' = fileG := by
      have : some fileG = some f' := hf
      injection this with h
      exact h.symm
    subst hf'
    have hc' : c' = "G body".data := by
      have : Except.ok ("G body".data : Str) = Except.ok c' := hr
      injection this with h
      exact h.symm
    subst hc'
    refine ⟨fun q => ne_entryBegin_of_head _ (by decide) q, ?_⟩
    intro sp hsp
    simp at hsp
